import Mathlib

/-!
Verification development for the upload-goblin token signer
(`src/examples/python_signature_generator.py`).

The program is a single pure function `generate_upload_signature` that
serializes a JSON payload compactly, base64url-encodes it without padding,
signs the encoded string with HMAC-SHA256, and returns
`encodedPayload ++ "." ++ encodedSignature`.

The shallow embedding below models:
  * JSON values (`JValue`) as the closed sum of JSON-representable data;
    numeric values are modelled as arbitrary-precision integers plus the
    three non-finite floats (`nan`, `infinity`, `negInfinity`) that the
    Python `json` module serializes as `NaN` / `Infinity` / `-Infinity`.
    Cyclic structures and unsupported host types are not representable in
    this inductive type, mirroring the fact that `json.dumps` only accepts
    acyclic JSON-representable inputs without raising.
  * `json.dumps(payload, separators=(',', ':'))` with the default
    `ensure_ascii=True` escaping (`dumpsChars` / `json_dumps`).
  * UTF-8 encoding of strings (`utf8Encode`), bytes as `Nat` in `[0,256)`.
  * `base64.urlsafe_b64encode` (`b64Encode`) and `.rstrip('=')`
    (`rstripEq`).
  * SHA-256 and HMAC-SHA256 over byte lists, with 32-bit words as `Nat`
    reduced modulo `2 ^ 32`.
-/

/-- JSON-representable values, as accepted by `json.dumps`.  Objects are
ordered association lists, matching Python dict insertion order. -/
inductive JValue where
  | null : JValue
  | bool : Bool → JValue
  | int : Int → JValue
  | nan : JValue
  | infinity : JValue
  | negInfinity : JValue
  | str : String → JValue
  | arr : List JValue → JValue
  | obj : List (String × JValue) → JValue

/-- Decimal digit character, `digitChar m` for `m < 10`. -/
def digitChar (m : Nat) : Char := Char.ofNat (48 + m)

/-- Fuel-driven worker for `natToChars`; the fuel only bounds the
recursion depth and is irrelevant once it is at least the digit count. -/
def natToCharsGo : Nat → Nat → List Char
  | 0, n => [digitChar n]
  | fuel + 1, n =>
    if n < 10 then [digitChar n]
    else natToCharsGo fuel (n / 10) ++ [digitChar (n % 10)]

/-- Decimal digits of a natural number, most significant first, as
produced by Python `str(n)` for `n ≥ 0`. -/
def natToChars (n : Nat) : List Char := natToCharsGo n n

/-- Decimal rendering of an integer, as produced by Python `str(n)`. -/
def intToChars (n : Int) : List Char :=
  if n < 0 then '-' :: natToChars n.natAbs else natToChars n.natAbs

/-- Lowercase hexadecimal digit character, as produced by Python's
`'\x7bO:04x\x7d'.format`. -/
def hexDigitChar (m : Nat) : Char :=
  if m < 10 then Char.ofNat (48 + m) else Char.ofNat (87 + m)

/-- Four lowercase hex digits of `n < 0x10000`, most significant first. -/
def hex4 (n : Nat) : List Char :=
  [hexDigitChar (n / 4096 % 16), hexDigitChar (n / 256 % 16),
   hexDigitChar (n / 16 % 16), hexDigitChar (n % 16)]

/-- Escaping of one character inside a JSON string literal, exactly as the
Python `json` encoder with `ensure_ascii=True` does it: the seven
shorthand escapes, printable ASCII verbatim, `\uXXXX` for everything
else, with surrogate pairs for characters beyond the BMP. -/
def escapeChar (c : Char) : List Char :=
  if c = '"' then ['\\', '"']
  else if c = '\\' then ['\\', '\\']
  else if c = '\x08' then ['\\', 'b']
  else if c = '\x0c' then ['\\', 'f']
  else if c = '\n' then ['\\', 'n']
  else if c = '\r' then ['\\', 'r']
  else if c = '\t' then ['\\', 't']
  else if 0x20 ≤ c.toNat ∧ c.toNat ≤ 0x7e then [c]
  else if c.toNat < 0x10000 then '\\' :: 'u' :: hex4 c.toNat
  else
    ('\\' :: 'u' :: hex4 (0xd800 + (c.toNat - 0x10000) / 0x400)) ++
      ('\\' :: 'u' :: hex4 (0xdc00 + (c.toNat - 0x10000) % 0x400))

/-- Escaping of a character list inside a JSON string literal. -/
def escapeChars : List Char → List Char
  | [] => []
  | c :: cs => escapeChar c ++ escapeChars cs

mutual

/-- Compact JSON serialization of a value: Python
`json.dumps(v, separators=(',', ':'))` with default `ensure_ascii=True`,
`allow_nan=True` and `sort_keys=False`. -/
def dumpsChars : JValue → List Char
  | .null => ['n', 'u', 'l', 'l']
  | .bool false => ['f', 'a', 'l', 's', 'e']
  | .bool true => ['t', 'r', 'u', 'e']
  | .int n => intToChars n
  | .nan => ['N', 'a', 'N']
  | .infinity => ['I', 'n', 'f', 'i', 'n', 'i', 't', 'y']
  | .negInfinity => ['-', 'I', 'n', 'f', 'i', 'n', 'i', 't', 'y']
  | .str s => '"' :: escapeChars s.data ++ ['"']
  | .arr es => '[' :: dumpsArr es ++ [']']
  | .obj ms => '{' :: dumpsObj ms ++ ['}']

/-- Comma-joined serializations of array elements, in order. -/
def dumpsArr : List JValue → List Char
  | [] => []
  | v :: vs => dumpsChars v ++ dumpsArrTail vs

/-- Remaining array elements, each preceded by the `,` separator. -/
def dumpsArrTail : List JValue → List Char
  | [] => []
  | v :: vs => ',' :: dumpsChars v ++ dumpsArrTail vs

/-- Comma-joined `"key":value` serializations of object members, in
insertion order (Python does not sort keys here). -/
def dumpsObj : List (String × JValue) → List Char
  | [] => []
  | (k, v) :: ms =>
    '"' :: escapeChars k.data ++ '"' :: ':' :: dumpsChars v ++ dumpsObjTail ms

/-- Remaining object members, each preceded by the `,` separator. -/
def dumpsObjTail : List (String × JValue) → List Char
  | [] => []
  | (k, v) :: ms =>
    ',' :: '"' :: escapeChars k.data ++ '"' :: ':' :: dumpsChars v ++ dumpsObjTail ms
end

/-- Serialization of a value to a `String`, `json.dumps` itself. -/
def json_dumps (v : JValue) : String := ⟨dumpsChars v⟩

/-- UTF-8 encoding of one character, bytes as naturals below 256. -/
def utf8Char (c : Char) : List Nat :=
  let n := c.toNat
  if n < 0x80 then [n]
  else if n < 0x800 then [0xc0 + n / 0x40, 0x80 + n % 0x40]
  else if n < 0x10000 then
    [0xe0 + n / 0x1000, 0x80 + n / 0x40 % 0x40, 0x80 + n % 0x40]
  else
    [0xf0 + n / 0x40000, 0x80 + n / 0x1000 % 0x40, 0x80 + n / 0x40 % 0x40,
     0x80 + n % 0x40]

/-- UTF-8 encoding of a character list. -/
def utf8EncodeChars : List Char → List Nat
  | [] => []
  | c :: cs => utf8Char c ++ utf8EncodeChars cs

/-- UTF-8 encoding of a string: Python `s.encode()`. -/
def utf8Encode (s : String) : List Nat := utf8EncodeChars s.data

/-- The URL-safe base64 alphabet, `-` and `_` in place of `+` and `/`. -/
def B64_TABLE : List Char :=
  ['A', 'B', 'C', 'D', 'E', 'F', 'G', 'H', 'I', 'J', 'K', 'L', 'M',
   'N', 'O', 'P', 'Q', 'R', 'S', 'T', 'U', 'V', 'W', 'X', 'Y', 'Z',
   'a', 'b', 'c', 'd', 'e', 'f', 'g', 'h', 'i', 'j', 'k', 'l', 'm',
   'n', 'o', 'p', 'q', 'r', 's', 't', 'u', 'v', 'w', 'x', 'y', 'z',
   '0', '1', '2', '3', '4', '5', '6', '7', '8', '9', '-', '_']

/-- Character of the URL-safe base64 alphabet at index `n < 64`. -/
def b64Char (n : Nat) : Char := B64_TABLE.getD n 'A'

/-- URL-safe base64 encoding with `=` padding:
`base64.urlsafe_b64encode`. -/
def b64Encode : List Nat → List Char
  | b1 :: b2 :: b3 :: rest =>
    b64Char (b1 / 4) :: b64Char (b1 % 4 * 16 + b2 / 16) ::
      b64Char (b2 % 16 * 4 + b3 / 64) :: b64Char (b3 % 64) :: b64Encode rest
  | [b1, b2] =>
    [b64Char (b1 / 4), b64Char (b1 % 4 * 16 + b2 / 16), b64Char (b2 % 16 * 4), '=']
  | [b1] => [b64Char (b1 / 4), b64Char (b1 % 4 * 16), '=', '=']
  | [] => []

/-- URL-safe base64 encoding without padding characters. -/
def b64NoPad : List Nat → List Char
  | b1 :: b2 :: b3 :: rest =>
    b64Char (b1 / 4) :: b64Char (b1 % 4 * 16 + b2 / 16) ::
      b64Char (b2 % 16 * 4 + b3 / 64) :: b64Char (b3 % 64) :: b64NoPad rest
  | [b1, b2] =>
    [b64Char (b1 / 4), b64Char (b1 % 4 * 16 + b2 / 16), b64Char (b2 % 16 * 4)]
  | [b1] => [b64Char (b1 / 4), b64Char (b1 % 4 * 16)]
  | [] => []

/-- Number of `=` padding characters `b64Encode` appends. -/
def b64PadCount : List Nat → Nat
  | _ :: _ :: _ :: rest => b64PadCount rest
  | [_, _] => 1
  | [_] => 2
  | [] => 0

/-- Removal of all trailing `=` characters: Python `.rstrip('=')`. -/
def rstripEq (cs : List Char) : List Char :=
  (cs.reverse.dropWhile (fun c => c == '=')).reverse

/-- 32-bit truncation. -/
def w32 (n : Nat) : Nat := n % 4294967296

/-- Right rotation of a 32-bit word (input assumed below `2 ^ 32`). -/
def rotr (n x : Nat) : Nat := x / 2 ^ n + x % 2 ^ n * 2 ^ (32 - n)

/-- SHA-256 big Sigma0. -/
def bigSigma0 (x : Nat) : Nat := rotr 2 x ^^^ rotr 13 x ^^^ rotr 22 x

/-- SHA-256 big Sigma1. -/
def bigSigma1 (x : Nat) : Nat := rotr 6 x ^^^ rotr 11 x ^^^ rotr 25 x

/-- SHA-256 small sigma0. -/
def smallSigma0 (x : Nat) : Nat := rotr 7 x ^^^ rotr 18 x ^^^ x / 2 ^ 3

/-- SHA-256 small sigma1. -/
def smallSigma1 (x : Nat) : Nat := rotr 17 x ^^^ rotr 19 x ^^^ x / 2 ^ 10

/-- SHA-256 choice function, complement taken inside 32 bits. -/
def chF (e f g : Nat) : Nat := (e &&& f) ^^^ ((e ^^^ 4294967295) &&& g)

/-- SHA-256 majority function. -/
def majF (a b c : Nat) : Nat := (a &&& b) ^^^ (a &&& c) ^^^ (b &&& c)

/-- Working state of the SHA-256 compression function: eight 32-bit
words. -/
structure Hash8 where
  a : Nat
  b : Nat
  c : Nat
  d : Nat
  e : Nat
  f : Nat
  g : Nat
  h : Nat

/-- The 64 SHA-256 round constants. -/
def K256 : List Nat :=
  [1116352408, 1899447441, 3049323471, 3921009573, 961987163, 1508970993,
   2453635748, 2870763221, 3624381080, 310598401, 607225278, 1426881987,
   1925078388, 2162078206, 2614888103, 3248222580, 3835390401, 4022224774,
   264347078, 604807628, 770255983, 1249150122, 1555081692, 1996064986,
   2554220882, 2821834349, 2952996808, 3210313671, 3336571891, 3584528711,
   113926993, 338241895, 666307205, 773529912, 1294757372, 1396182291,
   1695183700, 1986661051, 2177026350, 2456956037, 2730485921, 2820302411,
   3259730800, 3345764771, 3516065817, 3600352804, 4094571909, 275423344,
   430227734, 506948616, 659060556, 883997877, 958139571, 1322822218,
   1537002063, 1747873779, 1955562222, 2024104815, 2227730452, 2361852424,
   2428436474, 2756734187, 3204031479, 3329325298]

/-- Extension of the 16-word message block to the 64-word schedule,
`k` remaining words to append. -/
def scheduleExtend : List Nat → Nat → List Nat
  | ws, 0 => ws
  | ws, k + 1 =>
    scheduleExtend
      (ws ++ [w32 (smallSigma1 (ws.getD (ws.length - 2) 0) +
        ws.getD (ws.length - 7) 0 +
        smallSigma0 (ws.getD (ws.length - 15) 0) +
        ws.getD (ws.length - 16) 0)]) k

/-- One SHA-256 round, consuming a constant-schedule pair. -/
def roundStep (st : Hash8) (kw : Nat × Nat) : Hash8 :=
  let t1 := w32 (st.h + bigSigma1 st.e + chF st.e st.f st.g + kw.1 + kw.2)
  let t2 := w32 (bigSigma0 st.a + majF st.a st.b st.c)
  ⟨w32 (t1 + t2), st.a, st.b, st.c, w32 (st.d + t1), st.e, st.f, st.g⟩

/-- SHA-256 compression of one 16-word block into the chaining state. -/
def sha256Compress (st : Hash8) (block : List Nat) : Hash8 :=
  let ws := scheduleExtend (block.take 16) 48
  let fin := (K256.zip ws).foldl roundStep st
  ⟨w32 (st.a + fin.a), w32 (st.b + fin.b), w32 (st.c + fin.c),
   w32 (st.d + fin.d), w32 (st.e + fin.e), w32 (st.f + fin.f),
   w32 (st.g + fin.g), w32 (st.h + fin.h)⟩

/-- Folding of the padded message (a word list whose length the padding
always makes a multiple of 16) through the compression function, one
16-word block at a time. -/
def processWords : List Nat → Hash8 → Hash8
  | w1 :: w2 :: w3 :: w4 :: w5 :: w6 :: w7 :: w8 ::
      w9 :: w10 :: w11 :: w12 :: w13 :: w14 :: w15 :: w16 :: rest, st =>
    processWords rest (sha256Compress st
      [w1, w2, w3, w4, w5, w6, w7, w8, w9, w10, w11, w12, w13, w14, w15, w16])
  | _, st => st

/-- Big-endian bytes of a 32-bit word group: `beBytes k n` is the `k`
low-order bytes of `n`, most significant first. -/
def beBytes : Nat → Nat → List Nat
  | 0, _ => []
  | k + 1, n => beBytes k (n / 256) ++ [n % 256]

/-- Grouping of bytes into big-endian 32-bit words. -/
def wordsOfBytes : List Nat → List Nat
  | b1 :: b2 :: b3 :: b4 :: rest =>
    (b1 * 16777216 + b2 * 65536 + b3 * 256 + b4) :: wordsOfBytes rest
  | _ => []

/-- SHA-256 message padding: a `0x80` byte, zeros to 56 mod 64, then the
bit length as an 8-byte big-endian integer. -/
def shaPad (msg : List Nat) : List Nat :=
  msg ++ 128 :: List.replicate ((119 - msg.length % 64) % 64) 0 ++
    beBytes 8 (msg.length * 8)

/-- The SHA-256 initial hash value. -/
def shaH0 : Hash8 :=
  ⟨1779033703, 3144134277, 1013904242, 2773480762,
   1359893119, 2600822924, 528734635, 1541459225⟩

/-- SHA-256 digest of a byte list: 32 bytes. -/
def sha256 (msg : List Nat) : List Nat :=
  let st := processWords (wordsOfBytes (shaPad msg)) shaH0
  beBytes 4 st.a ++ beBytes 4 st.b ++ beBytes 4 st.c ++ beBytes 4 st.d ++
    beBytes 4 st.e ++ beBytes 4 st.f ++ beBytes 4 st.g ++ beBytes 4 st.h

/-- HMAC key preprocessing: keys longer than the 64-byte block are hashed,
then the key is zero-padded to exactly 64 bytes (RFC 2104, as implemented
by Python `hmac.new`). -/
def hmacBlockKey (key : List Nat) : List Nat :=
  let k0 := if 64 < key.length then sha256 key else key
  k0 ++ List.replicate (64 - k0.length) 0

/-- HMAC-SHA256 of a message under a key:
`hmac.new(key, msg, hashlib.sha256).digest()`. -/
def hmacSha256 (key msg : List Nat) : List Nat :=
  let kp := hmacBlockKey key
  sha256 ((kp.map (fun b => b ^^^ 0x5c)) ++
    sha256 ((kp.map (fun b => b ^^^ 0x36)) ++ msg))

/-- The characters of `payload_base64` in the source: compact JSON dump of
the payload dict, UTF-8 encoded, URL-safe base64 encoded, trailing `=`
stripped. -/
def payloadB64 (payload : List (String × JValue)) : List Char :=
  rstripEq (b64Encode (utf8Encode (json_dumps (.obj payload))))

/-- The characters of `signature_base64` in the source: HMAC-SHA256 of the
encoded payload string under the UTF-8 bytes of the secret key, URL-safe
base64 encoded, trailing `=` stripped. -/
def sigB64 (payload : List (String × JValue)) (secret_key : String) : List Char :=
  rstripEq (b64Encode (hmacSha256 (utf8Encode secret_key)
    (utf8Encode ⟨payloadB64 payload⟩)))

/-- The token signer, line for line the Python
`generate_upload_signature(payload, secret_key)`. -/
def generate_upload_signature (payload : List (String × JValue))
    (secret_key : String) : String :=
  let payload_json : String := json_dumps (.obj payload)
  let payload_base64 : String := ⟨rstripEq (b64Encode (utf8Encode payload_json))⟩
  let signature : List Nat :=
    hmacSha256 (utf8Encode secret_key) (utf8Encode payload_base64)
  let signature_base64 : String := ⟨rstripEq (b64Encode signature)⟩
  payload_base64 ++ "." ++ signature_base64

/-- Membership in the character class `[A-Za-z0-9_.-]` from the spec's
alphabet property. -/
def tokenAlphaChar (c : Char) : Prop :=
  ('A' ≤ c ∧ c ≤ 'Z') ∨ ('a' ≤ c ∧ c ≤ 'z') ∨ ('0' ≤ c ∧ c ≤ '9') ∨
    c = '_' ∨ c = '.' ∨ c = '-'

instance (c : Char) : Decidable (tokenAlphaChar c) := by
  unfold tokenAlphaChar; infer_instance

/-- The spec's `BASE64URL_NOPAD`: URL-safe base64 with trailing padding
stripped, as a string. -/
def BASE64URL_NOPAD (bs : List Nat) : String := ⟨rstripEq (b64Encode bs)⟩

/-- ASCII bytes of a string, the code points taken directly; meaningful
when every character is ASCII. -/
def asciiBytes (s : String) : List Nat := s.data.map Char.toNat

/-- Modelled from the spec: the verifier splits the token on `.`; this is
the part before the first separator. -/
def firstSegment (s : String) : String :=
  ⟨s.data.takeWhile (fun c => !(c == '.'))⟩

/-- Modelled from the spec: the part of the token after the last `.`
separator. -/
def lastSegment (s : String) : String :=
  ⟨(s.data.reverse.takeWhile (fun c => !(c == '.'))).reverse⟩

/-- Index of a character in a list, used to invert the base64 table. -/
def charIndex : List Char → Char → Option Nat
  | [], _ => none
  | t :: ts, c => if t = c then some 0 else (charIndex ts c).map (· + 1)

/-- Modelled from the spec: the verifier restores the stripped `=`
padding, bringing the length back to a multiple of 4. -/
def b64PadRestore (cs : List Char) : List Char :=
  cs ++ List.replicate ((4 - cs.length % 4) % 4) '='

/-- Modelled from the spec: strict base64url decoding of a padded
character list, four characters to three bytes, rejecting anything
outside the alphabet and misplaced padding. -/
def b64DecodeQuads : List Char → Option (List Nat)
  | [] => some []
  | c1 :: c2 :: c3 :: c4 :: rest =>
    (charIndex B64_TABLE c1).bind fun n1 =>
      (charIndex B64_TABLE c2).bind fun n2 =>
        if c3 = '=' then
          if c4 = '=' ∧ rest = [] then some [n1 * 4 + n2 / 16] else none
        else
          (charIndex B64_TABLE c3).bind fun n3 =>
            if c4 = '=' then
              if rest = [] then some [n1 * 4 + n2 / 16, n2 % 16 * 16 + n3 / 4]
              else none
            else
              (charIndex B64_TABLE c4).bind fun n4 =>
                (b64DecodeQuads rest).map fun bs =>
                  (n1 * 4 + n2 / 16) :: (n2 % 16 * 16 + n3 / 4) ::
                    (n3 % 4 * 64 + n4) :: bs
  | _ => none

mutual

/-- Modelled from the spec: standard UTF-8 decoding of a byte list,
rejecting malformed, overlong, surrogate and out-of-range sequences. -/
def utf8Decode : List Nat → Option (List Char)
  | [] => some []
  | b1 :: bs =>
    if b1 < 0x80 then (utf8Decode bs).map (Char.ofNat b1 :: ·)
    else if b1 < 0xc0 then none
    else if b1 < 0xe0 then utf8DecodeTwo b1 bs
    else if b1 < 0xf0 then utf8DecodeThree b1 bs
    else if b1 < 0xf8 then utf8DecodeFour b1 bs
    else none
termination_by l => 2 * l.length + 1
decreasing_by all_goals (simp_wf; try omega)

/-- Continuation of `utf8Decode` after a two-byte leading byte. -/
def utf8DecodeTwo : Nat → List Nat → Option (List Char)
  | b1, b2 :: bs2 =>
    if 0x80 ≤ b2 ∧ b2 < 0xc0 then
      if 0x80 ≤ (b1 - 0xc0) * 0x40 + (b2 - 0x80) then
        (utf8Decode bs2).map (Char.ofNat ((b1 - 0xc0) * 0x40 + (b2 - 0x80)) :: ·)
      else none
    else none
  | _, _ => none
termination_by _ bs => 2 * bs.length + 2
decreasing_by all_goals (simp_wf; try omega)

/-- Continuation of `utf8Decode` after a three-byte leading byte. -/
def utf8DecodeThree : Nat → List Nat → Option (List Char)
  | b1, b2 :: b3 :: bs2 =>
    if (0x80 ≤ b2 ∧ b2 < 0xc0) ∧ (0x80 ≤ b3 ∧ b3 < 0xc0) then
      if 0x800 ≤ (b1 - 0xe0) * 0x1000 + (b2 - 0x80) * 0x40 + (b3 - 0x80) ∧
          ((b1 - 0xe0) * 0x1000 + (b2 - 0x80) * 0x40 + (b3 - 0x80) < 0xd800 ∨
            0xe000 ≤ (b1 - 0xe0) * 0x1000 + (b2 - 0x80) * 0x40 + (b3 - 0x80)) then
        (utf8Decode bs2).map
          (Char.ofNat ((b1 - 0xe0) * 0x1000 + (b2 - 0x80) * 0x40 + (b3 - 0x80)) :: ·)
      else none
    else none
  | _, _ => none
termination_by _ bs => 2 * bs.length + 2
decreasing_by all_goals (simp_wf; try omega)

/-- Continuation of `utf8Decode` after a four-byte leading byte. -/
def utf8DecodeFour : Nat → List Nat → Option (List Char)
  | b1, b2 :: b3 :: b4 :: bs2 =>
    if (0x80 ≤ b2 ∧ b2 < 0xc0) ∧ (0x80 ≤ b3 ∧ b3 < 0xc0) ∧ (0x80 ≤ b4 ∧ b4 < 0xc0) then
      if 0x10000 ≤ (b1 - 0xf0) * 0x40000 + (b2 - 0x80) * 0x1000 +
            (b3 - 0x80) * 0x40 + (b4 - 0x80) ∧
          (b1 - 0xf0) * 0x40000 + (b2 - 0x80) * 0x1000 +
            (b3 - 0x80) * 0x40 + (b4 - 0x80) < 0x110000 then
        (utf8Decode bs2).map
          (Char.ofNat ((b1 - 0xf0) * 0x40000 + (b2 - 0x80) * 0x1000 +
            (b3 - 0x80) * 0x40 + (b4 - 0x80)) :: ·)
      else none
    else none
  | _, _ => none
termination_by _ bs => 2 * bs.length + 2
decreasing_by all_goals (simp_wf; try omega)
end

/-- Value of one hexadecimal digit character, either case. -/
def parseHexDigit (c : Char) : Option Nat :=
  if '0' ≤ c ∧ c ≤ '9' then some (c.toNat - 48)
  else if 'a' ≤ c ∧ c ≤ 'f' then some (c.toNat - 87)
  else if 'A' ≤ c ∧ c ≤ 'F' then some (c.toNat - 55)
  else none

/-- Greedy decimal digit run, left fold into an accumulator; returns the
value and the unconsumed remainder. -/
def parseDigits (acc : Nat) : List Char → Nat × List Char
  | [] => (acc, [])
  | c :: cs =>
    if c.isDigit then parseDigits (acc * 10 + (c.toNat - 48)) cs
    else (acc, c :: cs)

/-- Matching of an expected literal character sequence, returning the
remainder. -/
def expectChars : List Char → List Char → Option (List Char)
  | [], cs => some cs
  | e :: es, c :: cs => if c = e then expectChars es cs else none
  | _ :: _, [] => none

mutual

/-- Modelled from the spec: JSON string-literal body parser of the
external verifier, consuming up to and including the closing quote;
handles the shorthand escapes, `\uXXXX`, and surrogate pairs. -/
def parseStringBody : List Char → Option (List Char × List Char)
  | [] => none
  | c :: cs =>
    if c = '"' then some ([], cs)
    else if c = '\\' then parseEscape cs
    else if c.toNat < 0x20 then none
    else (parseStringBody cs).map fun (x, r) => (c :: x, r)
termination_by l => 4 * l.length
decreasing_by all_goals (simp_wf; try omega)

/-- Continuation of `parseStringBody` after a backslash. -/
def parseEscape : List Char → Option (List Char × List Char)
  | [] => none
  | e :: cs2 =>
    if e = 'u' then parseUEscape cs2
    else if e = '"' then (parseStringBody cs2).map fun (x, r) => ('"' :: x, r)
    else if e = '\\' then (parseStringBody cs2).map fun (x, r) => ('\\' :: x, r)
    else if e = '/' then (parseStringBody cs2).map fun (x, r) => ('/' :: x, r)
    else if e = 'b' then (parseStringBody cs2).map fun (x, r) => ('\x08' :: x, r)
    else if e = 'f' then (parseStringBody cs2).map fun (x, r) => ('\x0c' :: x, r)
    else if e = 'n' then (parseStringBody cs2).map fun (x, r) => ('\n' :: x, r)
    else if e = 'r' then (parseStringBody cs2).map fun (x, r) => ('\r' :: x, r)
    else if e = 't' then (parseStringBody cs2).map fun (x, r) => ('\t' :: x, r)
    else none
termination_by l => 4 * l.length + 3
decreasing_by all_goals (simp_wf; try omega)

/-- Continuation of `parseStringBody` after a `\u`; reads four hex
digits and either a BMP character or a high surrogate. -/
def parseUEscape : List Char → Option (List Char × List Char)
  | h1 :: h2 :: h3 :: h4 :: cs3 =>
    match parseHexDigit h1, parseHexDigit h2, parseHexDigit h3, parseHexDigit h4 with
    | some a1, some a2, some a3, some a4 =>
      if a1 * 4096 + a2 * 256 + a3 * 16 + a4 < 0xd800 ∨
          0xe000 ≤ a1 * 4096 + a2 * 256 + a3 * 16 + a4 then
        (parseStringBody cs3).map fun (x, r) =>
          (Char.ofNat (a1 * 4096 + a2 * 256 + a3 * 16 + a4) :: x, r)
      else if a1 * 4096 + a2 * 256 + a3 * 16 + a4 < 0xdc00 then
        parseLowSurrogate (a1 * 4096 + a2 * 256 + a3 * 16 + a4) cs3
      else none
    | _, _, _, _ => none
  | _ => none
termination_by l => 4 * l.length + 2
decreasing_by all_goals (simp_wf; try omega)

/-- Continuation of `parseUEscape` after a high surrogate `n`; reads the
`\uXXXX` low surrogate and combines the pair. -/
def parseLowSurrogate : Nat → List Char → Option (List Char × List Char)
  | n, '\\' :: 'u' :: g1 :: g2 :: g3 :: g4 :: cs4 =>
    match parseHexDigit g1, parseHexDigit g2, parseHexDigit g3, parseHexDigit g4 with
    | some d1, some d2, some d3, some d4 =>
      if 0xdc00 ≤ d1 * 4096 + d2 * 256 + d3 * 16 + d4 ∧
          d1 * 4096 + d2 * 256 + d3 * 16 + d4 < 0xe000 then
        (parseStringBody cs4).map fun (x, r) =>
          (Char.ofNat (0x10000 + (n - 0xd800) * 0x400 +
            (d1 * 4096 + d2 * 256 + d3 * 16 + d4 - 0xdc00)) :: x, r)
      else none
    | _, _, _, _ => none
  | _, _ => none
termination_by _ l => 4 * l.length + 1
decreasing_by all_goals (simp_wf; try omega)
end

/-- Continuation of `parseValue` after a `-` sign: either `-Infinity` or
a negative integer literal. -/
def parseNegNumber : List Char → Option (JValue × List Char)
  | [] => none
  | c2 :: cs2 =>
    if c2 = 'I' then
      (expectChars ['n', 'f', 'i', 'n', 'i', 't', 'y'] cs2).map fun r =>
        (.negInfinity, r)
    else if c2.isDigit then
      some (.int (-(((parseDigits (c2.toNat - 48) cs2).1 : Nat) : Int)),
        (parseDigits (c2.toNat - 48) cs2).2)
    else none

mutual

/-- Modelled from the spec: recursive-descent JSON value parser of the
external verifier, for the whitespace-free texts the signer emits.
Numeric values cover the integer and non-finite literals the modelled
serializer can produce.  The fuel argument only bounds recursion depth. -/
def parseValue : Nat → List Char → Option (JValue × List Char)
  | 0, _ => none
  | _ + 1, [] => none
  | fuel + 1, c :: cs =>
    if c = 'n' then (expectChars ['u', 'l', 'l'] cs).map fun r => (.null, r)
    else if c = 't' then (expectChars ['r', 'u', 'e'] cs).map fun r => (.bool true, r)
    else if c = 'f' then (expectChars ['a', 'l', 's', 'e'] cs).map fun r => (.bool false, r)
    else if c = 'N' then (expectChars ['a', 'N'] cs).map fun r => (.nan, r)
    else if c = 'I' then
      (expectChars ['n', 'f', 'i', 'n', 'i', 't', 'y'] cs).map fun r => (.infinity, r)
    else if c = '"' then
      (parseStringBody cs).map fun (x, r) => (.str ⟨x⟩, r)
    else if c = '{' then parseObjBody fuel cs
    else if c = '[' then parseArrBody fuel cs
    else if c = '-' then parseNegNumber cs
    else if c.isDigit then
      some (.int ((parseDigits (c.toNat - 48) cs).1 : Int),
        (parseDigits (c.toNat - 48) cs).2)
    else none
termination_by fuel _ => 10 * fuel
decreasing_by all_goals (simp_wf; try omega)

/-- Continuation of `parseValue` after `{`: the empty object or a
member list. -/
def parseObjBody : Nat → List Char → Option (JValue × List Char)
  | _, [] => none
  | fuel, c2 :: cs2 =>
    if c2 = '}' then some (.obj [], cs2)
    else (parseMembers fuel (c2 :: cs2)).map fun (ms, r) => (.obj ms, r)
termination_by fuel _ => 10 * fuel + 6
decreasing_by all_goals (simp_wf; try omega)

/-- Continuation of `parseValue` after `[`: the empty array or an
element list. -/
def parseArrBody : Nat → List Char → Option (JValue × List Char)
  | _, [] => none
  | fuel, c2 :: cs2 =>
    if c2 = ']' then some (.arr [], cs2)
    else (parseElems fuel (c2 :: cs2)).map fun (es, r) => (.arr es, r)
termination_by fuel _ => 10 * fuel + 6
decreasing_by all_goals (simp_wf; try omega)

/-- Modelled from the spec: one or more `"key":value` members followed by
the closing brace. -/
def parseMembers : Nat → List Char → Option (List (String × JValue) × List Char)
  | 0, _ => none
  | _ + 1, [] => none
  | fuel + 1, c :: cs =>
    if c = '"' then
      (parseStringBody cs).bind fun (key, r1) => parseMemberSep fuel key r1
    else none
termination_by fuel _ => 10 * fuel + 5
decreasing_by all_goals (simp_wf; try omega)

/-- Continuation of `parseMembers` after a parsed key: expects the colon
and the member value. -/
def parseMemberSep : Nat → List Char → List Char → Option (List (String × JValue) × List Char)
  | fuel, key, ':' :: r2 =>
    (parseValue fuel r2).bind fun (v, r3) => parseMemberEnd fuel key v r3
  | _, _, _ => none
termination_by fuel _ _ => 10 * fuel + 13
decreasing_by all_goals (simp_wf; try omega)

/-- Continuation of `parseMembers` after a parsed member: a comma and
more members, or the closing brace. -/
def parseMemberEnd : Nat → List Char → JValue → List Char → Option (List (String × JValue) × List Char)
  | fuel, key, v, ',' :: r4 =>
    (parseMembers fuel r4).map fun (ms, rest) => ((⟨key⟩, v) :: ms, rest)
  | _, key, v, '}' :: rest => some ([(⟨key⟩, v)], rest)
  | _, _, _, _ => none
termination_by fuel _ _ _ => 10 * fuel + 12
decreasing_by all_goals (simp_wf; try omega)

/-- Modelled from the spec: one or more array elements followed by the
closing bracket. -/
def parseElems : Nat → List Char → Option (List JValue × List Char)
  | 0, _ => none
  | fuel + 1, cs =>
    (parseValue fuel cs).bind fun (v, r1) => parseElemEnd fuel v r1
termination_by fuel _ => 10 * fuel + 5
decreasing_by all_goals (simp_wf; try omega)

/-- Continuation of `parseElems` after a parsed element: a comma and more
elements, or the closing bracket. -/
def parseElemEnd : Nat → JValue → List Char → Option (List JValue × List Char)
  | fuel, v, ',' :: r2 =>
    (parseElems fuel r2).map fun (es, rest) => (v :: es, rest)
  | _, v, ']' :: rest => some ([v], rest)
  | _, _, _ => none
termination_by fuel _ _ => 10 * fuel + 12
decreasing_by all_goals (simp_wf; try omega)
end

/-- Modelled from the spec: `json.loads` of the external verifier — parse
one value and require the input to be fully consumed. -/
def json_parse (s : String) : Option JValue :=
  match parseValue (s.data.length + 1) s.data with
  | some (v, []) => some v
  | _ => none

/-- Modelled from the spec: the verifier's recovery of the payload from a
token — take the part before the `.`, restore base64 padding, decode
base64url, decode UTF-8, parse JSON. -/
def verifierDecodePayload (token : String) : Option JValue :=
  (b64DecodeQuads (b64PadRestore (firstSegment token).data)).bind fun bytes =>
    (utf8Decode bytes).bind fun chars => json_parse ⟨chars⟩

mutual

/-- Node-count measure of a JSON value, used as parser fuel. -/
def Jsize : JValue → Nat
  | .null => 1
  | .bool _ => 1
  | .int _ => 1
  | .nan => 1
  | .infinity => 1
  | .negInfinity => 1
  | .str _ => 1
  | .arr es => 1 + JsizeArr es
  | .obj ms => 1 + JsizeObj ms

/-- Node-count measure of array elements. -/
def JsizeArr : List JValue → Nat
  | [] => 0
  | v :: vs => 1 + Jsize v + JsizeArr vs

/-- Node-count measure of object members. -/
def JsizeObj : List (String × JValue) → Nat
  | [] => 0
  | (_, v) :: ms => 1 + Jsize v + JsizeObj ms
end

/-! Basic helper lemmas about strings, stripping and the base64 alphabet. -/

theorem string_data_append (s t : String) : (s ++ t).data = s.data ++ t.data := rfl

theorem string_mk_data (s : String) : String.mk s.data = s := rfl

theorem mem_of_mem_dropWhile {c : Char} {p : Char → Bool} :
    ∀ {l : List Char}, c ∈ l.dropWhile p → c ∈ l := by
  intro l
  induction l with
  | nil => simp
  | cons a l ih =>
    intro h
    rw [List.dropWhile_cons] at h
    by_cases hp : p a
    · simp only [hp, if_true] at h
      exact List.mem_cons_of_mem a (ih h)
    · simp only [hp] at h
      simpa using h

theorem mem_of_mem_rstripEq {c : Char} {l : List Char} (h : c ∈ rstripEq l) :
    c ∈ l := by
  unfold rstripEq at h
  rw [List.mem_reverse] at h
  have := mem_of_mem_dropWhile h
  simpa using this

theorem dropWhile_eq_replicate_append (n : Nat) (xs : List Char) :
    (List.replicate n '=' ++ xs).dropWhile (fun c => c == '=') =
      xs.dropWhile (fun c => c == '=') := by
  induction n with
  | zero => simp
  | succ n ih => rw [List.replicate_succ, List.cons_append, List.dropWhile_cons]; simp [ih]

theorem rstripEq_append_replicate (xs : List Char) (n : Nat)
    (h : ∀ c ∈ xs, c ≠ '=') :
    rstripEq (xs ++ List.replicate n '=') = xs := by
  unfold rstripEq
  rw [List.reverse_append, List.reverse_replicate, dropWhile_eq_replicate_append]
  cases hx : xs.reverse with
  | nil =>
    have : xs = [] := by simpa using congrArg List.reverse hx
    simp [this]
  | cons a t =>
    have ha : a ∈ xs := by
      have : a ∈ xs.reverse := by rw [hx]; exact List.mem_cons_self a t
      simpa using this
    have : (a == '=') = false := by
      simpa using h a ha
    rw [List.dropWhile_cons, this]
    simp [← hx]

theorem takeWhile_append_stop {p : Char → Bool} (xs : List Char) (c : Char)
    (ys : List Char) (hxs : ∀ x ∈ xs, p x = true) (hc : p c = false) :
    (xs ++ c :: ys).takeWhile p = xs := by
  induction xs with
  | nil => simp [List.takeWhile_cons, hc]
  | cons a t ih =>
    have ha : p a = true := hxs a (List.mem_cons_self a t)
    rw [List.cons_append, List.takeWhile_cons, ha]
    simp only [if_true]
    rw [ih fun x hx => hxs x (List.mem_cons_of_mem a hx)]

theorem b64_table_props :
    ∀ c ∈ B64_TABLE, tokenAlphaChar c ∧ c ≠ '=' ∧ c ≠ '.' ∧ c.toNat < 0x80 := by
  decide

theorem b64Char_mem (n : Nat) : b64Char n ∈ B64_TABLE := by
  by_cases h : n < 64
  · revert h
    have : ∀ m, m < 64 → b64Char m ∈ B64_TABLE := by decide
    exact this n
  · unfold b64Char
    rw [List.getD_eq_default]
    · decide
    · simp only [B64_TABLE, List.length]
      omega

theorem b64Encode_decomp (bs : List Nat) :
    b64Encode bs = b64NoPad bs ++ List.replicate (b64PadCount bs) '=' := by
  induction bs using b64Encode.induct with
  | case1 b1 b2 b3 rest ih =>
    simp only [b64Encode, b64NoPad, b64PadCount, ih, List.cons_append]
  | case2 b1 b2 => simp [b64Encode, b64NoPad, b64PadCount, List.replicate]
  | case3 b1 => simp [b64Encode, b64NoPad, b64PadCount, List.replicate]
  | case4 => simp [b64Encode, b64NoPad, b64PadCount]

theorem mem_b64NoPad {c : Char} :
    ∀ {bs : List Nat}, c ∈ b64NoPad bs → c ∈ B64_TABLE := by
  intro bs
  induction bs using b64NoPad.induct with
  | case1 b1 b2 b3 rest ih =>
    intro h
    simp only [b64NoPad, List.mem_cons] at h
    rcases h with h | h | h | h | h
    all_goals first
      | (subst h; exact b64Char_mem _)
      | exact ih h
  | case2 b1 b2 =>
    intro h
    simp only [b64NoPad, List.mem_cons, List.not_mem_nil, or_false] at h
    rcases h with h | h | h <;> (subst h; exact b64Char_mem _)
  | case3 b1 =>
    intro h
    simp only [b64NoPad, List.mem_cons, List.not_mem_nil, or_false] at h
    rcases h with h | h <;> (subst h; exact b64Char_mem _)
  | case4 => intro h; simp [b64NoPad] at h

theorem rstripEq_b64Encode (bs : List Nat) :
    rstripEq (b64Encode bs) = b64NoPad bs := by
  rw [b64Encode_decomp, rstripEq_append_replicate]
  intro c hc
  exact (b64_table_props c (mem_b64NoPad hc)).2.1

theorem b64NoPad_length (bs : List Nat) :
    (b64NoPad bs).length =
      4 * (bs.length / 3) +
        (if bs.length % 3 = 0 then 0 else if bs.length % 3 = 1 then 2 else 3) := by
  induction bs using b64NoPad.induct with
  | case1 b1 b2 b3 rest ih =>
    simp only [b64NoPad, List.length_cons, ih, List.length]
    have h1 : (rest.length + 1 + 1 + 1) % 3 = rest.length % 3 := by omega
    have h2 : (rest.length + 1 + 1 + 1) / 3 = rest.length / 3 + 1 := by omega
    simp only [h1, h2]
    omega
  | case2 b1 b2 => simp [b64NoPad]
  | case3 b1 => simp [b64NoPad]
  | case4 => simp [b64NoPad]

theorem b64PadCount_eq (bs : List Nat) :
    b64PadCount bs =
      (if bs.length % 3 = 0 then 0 else if bs.length % 3 = 1 then 2 else 1) := by
  induction bs using b64PadCount.induct with
  | case1 b1 b2 b3 rest ih =>
    simp only [b64PadCount, List.length_cons, ih]
    have h1 : (rest.length + 1 + 1 + 1) % 3 = rest.length % 3 := by omega
    simp only [h1]
  | case2 b1 b2 => simp [b64PadCount]
  | case3 b1 => simp [b64PadCount]
  | case4 => simp [b64PadCount]

/-! Lemmas about UTF-8 on ASCII data, digest lengths and byte ranges. -/

theorem utf8Char_ascii {c : Char} (h : c.toNat < 0x80) : utf8Char c = [c.toNat] := by
  simp [utf8Char, h]

theorem utf8EncodeChars_append (xs ys : List Char) :
    utf8EncodeChars (xs ++ ys) = utf8EncodeChars xs ++ utf8EncodeChars ys := by
  induction xs with
  | nil => simp [utf8EncodeChars]
  | cons c cs ih => simp [utf8EncodeChars, ih]

theorem utf8EncodeChars_ascii :
    ∀ {cs : List Char}, (∀ c ∈ cs, c.toNat < 0x80) →
      utf8EncodeChars cs = cs.map Char.toNat := by
  intro cs
  induction cs with
  | nil => intro _; rfl
  | cons c cs ih =>
    intro h
    rw [utf8EncodeChars, utf8Char_ascii (h c (List.mem_cons_self c cs)),
      ih fun x hx => h x (List.mem_cons_of_mem c hx)]
    rfl

theorem beBytes_length (k : Nat) : ∀ n, (beBytes k n).length = k := by
  induction k with
  | zero => intro n; rfl
  | succ k ih => intro n; simp [beBytes, ih]

theorem beBytes_lt (k : Nat) : ∀ n, ∀ b ∈ beBytes k n, b < 256 := by
  induction k with
  | zero => intro n b hb; simp [beBytes] at hb
  | succ k ih =>
    intro n b hb
    simp only [beBytes, List.mem_append, List.mem_singleton] at hb
    rcases hb with hb | hb
    · exact ih _ b hb
    · omega

theorem sha256_length (msg : List Nat) : (sha256 msg).length = 32 := by
  simp [sha256, beBytes_length]

theorem sha256_bytes_lt (msg : List Nat) : ∀ b ∈ sha256 msg, b < 256 := by
  intro b hb
  simp only [sha256, List.mem_append] at hb
  rcases hb with ((((((hb | hb) | hb) | hb) | hb) | hb) | hb) | hb <;>
    exact beBytes_lt 4 _ b hb

theorem hmacSha256_length (key msg : List Nat) :
    (hmacSha256 key msg).length = 32 := by
  simp [hmacSha256, sha256_length]

theorem hmacSha256_bytes_lt (key msg : List Nat) :
    ∀ b ∈ hmacSha256 key msg, b < 256 := by
  intro b hb
  exact sha256_bytes_lt _ b hb

/-! The HMAC key zero-padding collision: a key of at most 63 bytes and
the same key with a NUL byte appended give identical padded key blocks
and therefore identical MACs. -/

theorem hmacBlockKey_append_zero {key : List Nat} (h : key.length ≤ 63) :
    hmacBlockKey (key ++ [0]) = hmacBlockKey key := by
  unfold hmacBlockKey
  have c1 : ¬ 64 < (key ++ [0]).length := by simp; omega
  have c2 : ¬ 64 < key.length := by omega
  rw [if_neg c1, if_neg c2]
  simp only [List.length_append, List.length_singleton]
  rw [show 64 - key.length = (64 - (key.length + 1)) + 1 from by omega,
    List.replicate_succ, List.append_assoc, List.singleton_append]

theorem hmacSha256_key_congr {k1 k2 : List Nat} (msg : List Nat)
    (h : hmacBlockKey k1 = hmacBlockKey k2) :
    hmacSha256 k1 msg = hmacSha256 k2 msg := by
  unfold hmacSha256
  rw [h]

/-! Structure of the produced token. -/

theorem sign_eq (p : List (String × JValue)) (k : String) :
    generate_upload_signature p k = ⟨payloadB64 p ++ '.' :: sigB64 p k⟩ := by
  apply String.ext
  show (String.mk (payloadB64 p) ++ "." ++ String.mk (sigB64 p k)).data = _
  rw [string_data_append, string_data_append]
  simp

theorem sign_data (p : List (String × JValue)) (k : String) :
    (generate_upload_signature p k).data = payloadB64 p ++ '.' :: sigB64 p k := by
  rw [sign_eq]

theorem mem_payloadB64_table {p : List (String × JValue)} {c : Char}
    (h : c ∈ payloadB64 p) : c ∈ B64_TABLE := by
  unfold payloadB64 at h
  rw [rstripEq_b64Encode] at h
  exact mem_b64NoPad h

theorem mem_sigB64_table {p : List (String × JValue)} {k : String} {c : Char}
    (h : c ∈ sigB64 p k) : c ∈ B64_TABLE := by
  unfold sigB64 at h
  rw [rstripEq_b64Encode] at h
  exact mem_b64NoPad h

theorem sigB64_length (p : List (String × JValue)) (k : String) :
    (sigB64 p k).length = 43 := by
  unfold sigB64
  rw [rstripEq_b64Encode, b64NoPad_length, hmacSha256_length]
  norm_num

theorem firstSegment_sign (p : List (String × JValue)) (k : String) :
    firstSegment (generate_upload_signature p k) = ⟨payloadB64 p⟩ := by
  unfold firstSegment
  rw [sign_data]
  congr 1
  apply takeWhile_append_stop
  · intro x hx
    have := (b64_table_props x (mem_payloadB64_table hx)).2.2.1
    simpa using this
  · simp

theorem lastSegment_sign (p : List (String × JValue)) (k : String) :
    lastSegment (generate_upload_signature p k) = ⟨sigB64 p k⟩ := by
  have hall : ∀ x ∈ (sigB64 p k).reverse, (!(x == '.')) = true := by
    intro x hx
    rw [List.mem_reverse] at hx
    have := (b64_table_props x (mem_sigB64_table hx)).2.2.1
    simpa using this
  have h2 : ((generate_upload_signature p k).data.reverse.takeWhile
      (fun c => !(c == '.'))).reverse = sigB64 p k := by
    rw [sign_data]
    have h1 : (payloadB64 p ++ '.' :: sigB64 p k).reverse =
        (sigB64 p k).reverse ++ '.' :: (payloadB64 p).reverse := by
      simp
    rw [h1, takeWhile_append_stop ((sigB64 p k).reverse) '.'
      ((payloadB64 p).reverse) hall (by simp), List.reverse_reverse]
  unfold lastSegment
  exact congrArg String.mk h2

theorem sign_count_dot (p : List (String × JValue)) (k : String) :
    (generate_upload_signature p k).data.count '.' = 1 := by
  rw [sign_data, List.count_append]
  have h1 : (payloadB64 p).count '.' = 0 := by
    rw [List.count_eq_zero]
    intro h
    exact (b64_table_props '.' (mem_payloadB64_table h)).2.2.1 rfl
  have h2 : (sigB64 p k).count '.' = 0 := by
    rw [List.count_eq_zero]
    intro h
    exact (b64_table_props '.' (mem_sigB64_table h)).2.2.1 rfl
  rw [h1, List.count_cons_self, h2]

/-! Further shared helpers used by the claim theorems. -/

theorem asciiBytes_payloadB64 (p : List (String × JValue)) :
    asciiBytes ⟨payloadB64 p⟩ = utf8Encode ⟨payloadB64 p⟩ := by
  unfold asciiBytes utf8Encode
  show (payloadB64 p).map Char.toNat = utf8EncodeChars (payloadB64 p)
  rw [utf8EncodeChars_ascii]
  intro c hc
  exact (b64_table_props c (mem_payloadB64_table hc)).2.2.2

theorem dumpsArrTail_eq_flatten (vs : List JValue) :
    dumpsArrTail vs = (vs.map fun v => ',' :: dumpsChars v).flatten := by
  induction vs with
  | nil => rfl
  | cons v vs ih => simp [dumpsArrTail, ih]

theorem dumpsObjTail_eq_flatten (ms : List (String × JValue)) :
    dumpsObjTail ms =
      (ms.map fun m => ',' :: ('"' :: escapeChars m.1.data ++ '"' :: ':' :: dumpsChars m.2)).flatten := by
  induction ms with
  | nil => rfl
  | cons m ms ih =>
    cases m with
    | mk k v => simp [dumpsObjTail, ih]

theorem intercalate_comma_eq (x : List Char) (xs : List (List Char)) :
    List.intercalate [','] (x :: xs) = x ++ (xs.map fun l => ',' :: l).flatten := by
  induction xs generalizing x with
  | nil => simp [List.intercalate]
  | cons y ys ih =>
    rw [List.intercalate, List.intersperse_cons_cons, List.flatten_cons,
      List.flatten_cons]
    have := ih y
    rw [List.intercalate] at this
    simp only [List.map_cons, List.flatten_cons, this]
    simp

theorem dumpsArr_eq_intercalate (es : List JValue) :
    dumpsArr es = List.intercalate [','] (es.map dumpsChars) := by
  cases es with
  | nil => rfl
  | cons v vs =>
    rw [dumpsArr, List.map_cons, intercalate_comma_eq, dumpsArrTail_eq_flatten,
      List.map_map]
    rfl

theorem dumpsObj_eq_intercalate (ms : List (String × JValue)) :
    dumpsObj ms = List.intercalate [',']
      (ms.map fun m => '"' :: escapeChars m.1.data ++ '"' :: ':' :: dumpsChars m.2) := by
  cases ms with
  | nil => rfl
  | cons m ms =>
    cases m with
    | mk k v =>
      rw [dumpsObj, List.map_cons, intercalate_comma_eq, dumpsObjTail_eq_flatten,
        List.map_map]
      rfl

theorem string_ne_of_length {s t : String} (h : s.data.length ≠ t.data.length) :
    s ≠ t := by
  intro he
  exact h (congrArg (fun u => u.data.length) he)

theorem mk_append_dot_mk (a b : List Char) :
    (String.mk a ++ "." ++ String.mk b) = String.mk (a ++ '.' :: b) := by
  apply String.ext
  rw [string_data_append, string_data_append]
  simp

theorem mk_data (l : List Char) : (String.mk l).data = l := rfl

theorem mk_length (l : List Char) : (String.mk l).length = l.length := rfl

theorem sign_eq_e30 (k : String) :
    generate_upload_signature [] k = "e30." ++ String.mk (sigB64 [] k) := by
  rw [sign_eq]
  have hp : payloadB64 [] = ['e', '3', '0'] := by decide
  rw [hp]
  generalize sigB64 [] k = S
  apply String.ext
  rw [string_data_append, mk_data, mk_data]
  rfl

/-! Claim theorems. -/

/-- C1: for every payload and secret key, `generate_upload_signature`
returns exactly `BASE64URL_NOPAD(canonicalJSON(payload)) ++ "." ++
BASE64URL_NOPAD(HMAC_SHA256(secretKey, BASE64URL_NOPAD(canonicalJSON(payload))))`,
the HMAC taken over the ASCII bytes of the already-encoded payload string
and keyed with the UTF-8 bytes of the secret key. -/
theorem claim_C1 (p : List (String × JValue)) (k : String) :
    generate_upload_signature p k =
      BASE64URL_NOPAD (utf8Encode (json_dumps (.obj p))) ++ "." ++
        BASE64URL_NOPAD (hmacSha256 (utf8Encode k)
          (asciiBytes (BASE64URL_NOPAD (utf8Encode (json_dumps (.obj p)))))) := by
  have hb : BASE64URL_NOPAD (utf8Encode (json_dumps (.obj p))) = ⟨payloadB64 p⟩ := rfl
  rw [hb, asciiBytes_payloadB64]
  have hs : BASE64URL_NOPAD (hmacSha256 (utf8Encode k) (utf8Encode ⟨payloadB64 p⟩)) =
      ⟨sigB64 p k⟩ := rfl
  rw [hs, sign_eq, mk_append_dot_mk]

/-- C2: the canonical payload text is the compact JSON serialization —
members joined by a single comma, key and value separated by a single
colon, no space after either separator and no other inserted whitespace,
with object keys emitted in the input mapping's order (never sorted), and
the same shape for nested arrays. -/
theorem claim_C2 :
    (∀ ms : List (String × JValue),
      (json_dumps (.obj ms)).data = '{' :: List.intercalate [',']
        (ms.map fun m => '"' :: escapeChars m.1.data ++ '"' :: ':' :: dumpsChars m.2) ++ ['}']) ∧
    (∀ es : List JValue,
      (json_dumps (.arr es)).data = '[' :: List.intercalate [',']
        (es.map dumpsChars) ++ [']']) := by
  constructor
  · intro ms
    show dumpsChars (.obj ms) = _
    rw [dumpsChars, dumpsObj_eq_intercalate]
  · intro es
    show dumpsChars (.arr es) = _
    rw [dumpsChars, dumpsArr_eq_intercalate]

/-- C4: the signer is deterministic — two calls on identical payloads
(with their fixed key order) and identical secrets return identical
tokens. -/
theorem claim_C4 (p1 p2 : List (String × JValue)) (k1 k2 : String)
    (hp : p1 = p2) (hk : k1 = k2) :
    generate_upload_signature p1 k1 = generate_upload_signature p2 k2 := by
  subst hp; subst hk; rfl

/-- Witness for C4 at the spec's concrete scenario. -/
theorem claim_C4_witness :
    ([("user_id", JValue.int 42), ("action", JValue.str "upload")] =
        [("user_id", JValue.int 42), ("action", JValue.str "upload")]) ∧
      ("test-secret" : String) = "test-secret" ∧
      generate_upload_signature
          [("user_id", JValue.int 42), ("action", JValue.str "upload")] "test-secret" =
        generate_upload_signature
          [("user_id", JValue.int 42), ("action", JValue.str "upload")] "test-secret" :=
  ⟨rfl, rfl, claim_C4 _ _ _ _ rfl rfl⟩

/-- C5: every character of a produced token lies in `[A-Za-z0-9_.-]` —
never `+`, `/` or `=` — and the token contains exactly one `.`. -/
theorem claim_C5 (p : List (String × JValue)) (k : String) :
    (∀ c ∈ (generate_upload_signature p k).data, tokenAlphaChar c) ∧
      (generate_upload_signature p k).data.count '.' = 1 := by
  refine ⟨?_, sign_count_dot p k⟩
  intro c hc
  rw [sign_data] at hc
  rcases List.mem_append.mp hc with h | h
  · exact (b64_table_props c (mem_payloadB64_table h)).1
  · rcases List.mem_cons.mp h with h | h
    · subst h
      right; right; right; right; left; rfl
    · exact (b64_table_props c (mem_sigB64_table h)).1

/-- C7 (as written, refuted): distinct secret keys can produce the same
token; HMAC zero-pads keys shorter than the 64-byte block, so `"a"` and
`"a\x00"` are MAC-equivalent.  This closed counterexample exhibits two
distinct keys with byte-identical tokens for the same payload. -/
theorem claim_C7_counterexample :
    ("a" : String) ≠ "a\x00" ∧
      generate_upload_signature [("user_id", JValue.int 42)] "a" =
        generate_upload_signature [("user_id", JValue.int 42)] "a\x00" := by
  constructor
  · decide
  · have hkey : hmacBlockKey (utf8Encode "a") = hmacBlockKey (utf8Encode "a\x00") := by
      decide
    have hsig : sigB64 [("user_id", JValue.int 42)] "a" =
        sigB64 [("user_id", JValue.int 42)] "a\x00" := by
      unfold sigB64
      rw [hmacSha256_key_congr _ hkey]
    rw [sign_eq, sign_eq, hsig]

/-- C7 (amended): for a fixed payload, distinct keys are expected to give
distinct tokens only heuristically; the guarantee fails in general — for
every secret key of at most 63 UTF-8 bytes, appending a NUL character
gives a different key whose token is byte-for-byte identical, because
HMAC zero-pads the key to the 64-byte block size. -/
theorem claim_C7_amended (p : List (String × JValue)) (k : String)
    (h : (utf8Encode k).length ≤ 63) :
    k ≠ k ++ "\x00" ∧
      generate_upload_signature p k = generate_upload_signature p (k ++ "\x00") := by
  have hdata : (k ++ "\x00").data = k.data ++ ['\x00'] := string_data_append k "\x00"
  constructor
  · apply string_ne_of_length
    rw [hdata]
    simp
  · have henc : utf8Encode (k ++ "\x00") = utf8Encode k ++ [0] := by
      unfold utf8Encode
      rw [hdata, utf8EncodeChars_append]
      rfl
    have hkey : hmacBlockKey (utf8Encode k) = hmacBlockKey (utf8Encode (k ++ "\x00")) := by
      rw [henc, hmacBlockKey_append_zero h]
    have hsig : sigB64 p k = sigB64 p (k ++ "\x00") := by
      unfold sigB64
      rw [hmacSha256_key_congr _ hkey]
    rw [sign_eq, sign_eq, hsig]

/-- Witness for the amended C7 at the key `"a"`. -/
theorem claim_C7_amended_witness :
    (utf8Encode "a").length ≤ 63 ∧
      ("a" : String) ≠ "a" ++ "\x00" ∧
      generate_upload_signature [("user_id", JValue.int 42)] "a" =
        generate_upload_signature [("user_id", JValue.int 42)] ("a" ++ "\x00") :=
  ⟨by decide, claim_C7_amended [("user_id", JValue.int 42)] "a" (by decide)⟩

/-- C8: the empty payload with any non-empty secret gives a valid
two-part token — serialization exactly the two characters left brace,
right brace; encoded payload `e30`; a single separator; and a non-empty
43-character signature segment. -/
theorem claim_C8 (k : String) (_hk : k ≠ "") :
    json_dumps (.obj []) = "\x7b\x7d" ∧
      ∃ s : String, generate_upload_signature [] k = "e30." ++ s ∧
        s ≠ "" ∧ s.length = 43 ∧
        (generate_upload_signature [] k).data.count '.' = 1 := by
  refine ⟨by decide, String.mk (sigB64 [] k), sign_eq_e30 k, ?_, ?_,
    sign_count_dot [] k⟩
  · apply string_ne_of_length
    rw [mk_data, sigB64_length]
    decide
  · rw [mk_length, sigB64_length]

/-- Witness for C8 at the secret `"x"`. -/
theorem claim_C8_witness :
    ("x" : String) ≠ "" ∧
      (json_dumps (.obj []) = "\x7b\x7d" ∧
        ∃ s : String, generate_upload_signature [] "x" = "e30." ++ s ∧
          s ≠ "" ∧ s.length = 43 ∧
          (generate_upload_signature [] "x").data.count '.' = 1) :=
  ⟨by decide, claim_C8 "x" (by decide)⟩

/-- C9: the signature segment after the final `.` is always exactly 43
characters: the HMAC-SHA256 digest is 32 bytes, its padded base64url
encoding is 44 characters ending in exactly one `=`, and stripping that
padding leaves 43. -/
theorem claim_C9 (p : List (String × JValue)) (k : String) :
    (lastSegment (generate_upload_signature p k)).length = 43 ∧
      (hmacSha256 (utf8Encode k) (utf8Encode ⟨payloadB64 p⟩)).length = 32 ∧
      b64Encode (hmacSha256 (utf8Encode k) (utf8Encode ⟨payloadB64 p⟩)) =
        b64NoPad (hmacSha256 (utf8Encode k) (utf8Encode ⟨payloadB64 p⟩)) ++ ['='] ∧
      (b64Encode (hmacSha256 (utf8Encode k) (utf8Encode ⟨payloadB64 p⟩))).length = 44 := by
  have hlen := hmacSha256_length (utf8Encode k) (utf8Encode ⟨payloadB64 p⟩)
  have hpad : b64PadCount (hmacSha256 (utf8Encode k) (utf8Encode ⟨payloadB64 p⟩)) = 1 := by
    rw [b64PadCount_eq, hlen]
    decide
  have hdec := b64Encode_decomp (hmacSha256 (utf8Encode k) (utf8Encode ⟨payloadB64 p⟩))
  rw [hpad] at hdec
  refine ⟨?_, hlen, by simpa using hdec, ?_⟩
  · rw [lastSegment_sign]
    show (sigB64 p k).length = 43
    exact sigB64_length p k
  · rw [hdec]
    simp only [List.length_append, List.length_replicate, b64NoPad_length, hlen]
    norm_num

/-- C10: the payload segment (the part of the token before the first `.`)
does not depend on the secret key; the key influences only the signature
segment. -/
theorem claim_C10 (p : List (String × JValue)) (k1 k2 : String) :
    firstSegment (generate_upload_signature p k1) =
      firstSegment (generate_upload_signature p k2) := by
  rw [firstSegment_sign, firstSegment_sign]

/-- C3 (as written, refuted): the claim says the signer fails with a
SerializationError on non-finite numeric values and returns no token.
On the code, `json.dumps` keeps its default `allow_nan=True`, so a NaN
payload serializes to the literal text `NaN` and a complete well-formed
token is returned.  This closed theorem evaluates the signer on a payload
containing NaN: serialization succeeds and the full two-part token
appears. -/
theorem claim_C3_counterexample :
    json_dumps (.obj [("a", JValue.nan)]) = "\x7b\"a\":NaN\x7d" ∧
      firstSegment (generate_upload_signature [("a", JValue.nan)] "secret") =
        "eyJhIjpOYU59" ∧
      (generate_upload_signature [("a", JValue.nan)] "secret").data.count '.' = 1 := by
  refine ⟨by decide, ?_, sign_count_dot _ _⟩
  rw [firstSegment_sign]
  show (⟨payloadB64 [("a", JValue.nan)]⟩ : String) = "eyJhIjpOYU59"
  decide

/-- C3 (amended): the only values `json.dumps` rejects are ones outside
the JSON-representable model (cyclic structures, unsupported host types),
which the payload type cannot contain; non-finite numeric values do not
cause a failure but serialize as `NaN`, `Infinity` and `-Infinity`.  On
every representable payload — non-finite numbers included — the signer
succeeds and returns a complete two-part token, never a partial one. -/
theorem claim_C3_amended (p : List (String × JValue)) (k : String) :
    generate_upload_signature p k = String.mk (payloadB64 p) ++ "." ++ String.mk (sigB64 p k) ∧
      sigB64 p k ≠ [] ∧
      (generate_upload_signature p k).data.count '.' = 1 := by
  refine ⟨?_, ?_, sign_count_dot p k⟩
  · rw [sign_eq, mk_append_dot_mk]
  · intro h
    have := sigB64_length p k
    rw [h] at this
    simp at this

/-! Char code-point lemmas used by the decoding roundtrip. -/

theorem char_toNat_ofNat_valid {n : Nat} (h : n.isValidChar) :
    (Char.ofNat n).toNat = n := by
  rw [Char.ofNat, dif_pos h]
  rfl

theorem char_ofNat_toNat (c : Char) : Char.ofNat c.toNat = c := by
  have hv : c.toNat.isValidChar := c.valid
  rw [Char.ofNat, dif_pos hv]
  apply Char.eq_of_val_eq
  show UInt32.mk (BitVec.ofNatLt c.toNat _) = c.val
  have h : c.val = UInt32.mk c.val.toBitVec := rfl
  rw [h]
  apply congrArg UInt32.mk
  apply BitVec.eq_of_toNat_eq
  simp
  rfl

theorem char_toNat_lt (c : Char) : c.toNat < 0x110000 := by
  rcases c.valid with h | ⟨h1, h2⟩
  · exact Nat.lt_trans h (by norm_num)
  · exact h2

theorem char_not_surrogate (c : Char) :
    c.toNat < 0xd800 ∨ 0xe000 ≤ c.toNat := by
  rcases c.valid with h | ⟨h1, h2⟩
  · exact Or.inl h
  · right
    have h : c.toNat = c.val.toNat := rfl
    omega

/-! Base64url decode inverts the encoder; UTF-8 decode inverts the
encoder on ASCII data. -/

theorem charIndex_b64Char : ∀ n, n < 64 → charIndex B64_TABLE (b64Char n) = some n := by
  decide

theorem b64Char_ne_eq (n : Nat) : ¬ b64Char n = '=' :=
  (b64_table_props _ (b64Char_mem n)).2.1

theorem b64PadRestore_noPad (bs : List Nat) :
    b64PadRestore (b64NoPad bs) = b64Encode bs := by
  unfold b64PadRestore
  rw [b64Encode_decomp]
  congr 2
  rw [b64NoPad_length, b64PadCount_eq]
  split_ifs <;> omega

theorem b64DecodeQuads_b64Encode :
    ∀ bs : List Nat, (∀ b ∈ bs, b < 256) →
      b64DecodeQuads (b64Encode bs) = some bs := by
  intro bs
  induction bs using b64Encode.induct with
  | case1 b1 b2 b3 rest ih =>
    intro h
    have hb1 : b1 < 256 := h b1 (by simp)
    have hb2 : b2 < 256 := h b2 (by simp)
    have hb3 : b3 < 256 := h b3 (by simp)
    rw [b64Encode, b64DecodeQuads]
    rw [charIndex_b64Char _ (by omega), charIndex_b64Char _ (by omega)]
    simp only [Option.some_bind]
    rw [if_neg (b64Char_ne_eq _)]
    rw [charIndex_b64Char _ (by omega)]
    simp only [Option.some_bind]
    rw [if_neg (b64Char_ne_eq _)]
    rw [charIndex_b64Char _ (by omega)]
    simp only [Option.some_bind]
    rw [ih (fun b hb => h b (by simp [hb]))]
    simp only [Option.map_some']
    have e1 : b1 / 4 * 4 + (b1 % 4 * 16 + b2 / 16) / 16 = b1 := by omega
    have e2 : (b1 % 4 * 16 + b2 / 16) % 16 * 16 + (b2 % 16 * 4 + b3 / 64) / 4 = b2 := by
      omega
    have e3 : (b2 % 16 * 4 + b3 / 64) % 4 * 64 + b3 % 64 = b3 := by omega
    rw [e1, e2, e3]
  | case2 b1 b2 =>
    intro h
    have hb1 : b1 < 256 := h b1 (by simp)
    have hb2 : b2 < 256 := h b2 (by simp)
    rw [b64Encode, b64DecodeQuads]
    rw [charIndex_b64Char _ (by omega), charIndex_b64Char _ (by omega)]
    simp only [Option.some_bind]
    rw [if_neg (b64Char_ne_eq _)]
    rw [charIndex_b64Char _ (by omega)]
    simp only [Option.some_bind]
    have e1 : b1 / 4 * 4 + (b1 % 4 * 16 + b2 / 16) / 16 = b1 := by omega
    have e2 : (b1 % 4 * 16 + b2 / 16) % 16 * 16 + b2 % 16 * 4 / 4 = b2 := by omega
    simp only [e1, e2, if_true, and_self, if_pos]
  | case3 b1 =>
    intro h
    have hb1 : b1 < 256 := h b1 (by simp)
    rw [b64Encode, b64DecodeQuads]
    rw [charIndex_b64Char _ (by omega), charIndex_b64Char _ (by omega)]
    simp only [Option.some_bind]
    have e1 : b1 / 4 * 4 + b1 % 4 * 16 / 16 = b1 := by omega
    simp only [e1, if_true, and_self, if_pos]
  | case4 =>
    intro _
    rfl

theorem utf8Decode_ascii :
    ∀ bs : List Nat, (∀ b ∈ bs, b < 0x80) →
      utf8Decode bs = some (bs.map Char.ofNat) := by
  intro bs
  induction bs with
  | nil =>
    intro _
    rw [utf8Decode]
    rfl
  | cons b bs ih =>
    intro h
    have hb : b < 0x80 := h b (by simp)
    rw [utf8Decode, if_pos hb, ih (fun x hx => h x (by simp [hx]))]
    rfl

theorem utf8Decode_encode_ascii (cs : List Char) (h : ∀ c ∈ cs, c.toNat < 0x80) :
    utf8Decode (utf8EncodeChars cs) = some cs := by
  rw [utf8EncodeChars_ascii h, utf8Decode_ascii]
  · congr 1
    rw [List.map_map]
    induction cs with
    | nil => rfl
    | cons c cs ihc =>
      rw [List.map_cons]
      rw [ihc (fun x hx => h x (by simp [hx]))]
      show Char.ofNat c.toNat :: cs = c :: cs
      rw [char_ofNat_toNat]
  · intro b hb
    rcases List.mem_map.mp hb with ⟨c, hc, rfl⟩
    exact h c hc

/-! The serializer emits only ASCII characters (`ensure_ascii=True`), and
UTF-8 encoding emits only bytes below 256. -/

theorem hexDigitChar_ascii : ∀ m, m < 16 → (hexDigitChar m).toNat < 0x80 := by
  decide

theorem hex4_ascii (n : Nat) : ∀ x ∈ hex4 n, x.toNat < 0x80 := by
  intro x hx
  simp only [hex4, List.mem_cons, List.not_mem_nil, or_false] at hx
  rcases hx with rfl | rfl | rfl | rfl <;>
    exact hexDigitChar_ascii _ (Nat.mod_lt _ (by norm_num))

theorem escapeChar_ascii (c : Char) : ∀ x ∈ escapeChar c, x.toNat < 0x80 := by
  unfold escapeChar
  split_ifs with h1 h2 h3 h4 h5 h6 h7 h8 h9 <;> intro x hx
  · simp only [List.mem_cons, List.not_mem_nil, or_false] at hx
    rcases hx with rfl | rfl <;> decide
  · simp only [List.mem_cons, List.not_mem_nil, or_false] at hx
    rcases hx with rfl | rfl <;> decide
  · simp only [List.mem_cons, List.not_mem_nil, or_false] at hx
    rcases hx with rfl | rfl <;> decide
  · simp only [List.mem_cons, List.not_mem_nil, or_false] at hx
    rcases hx with rfl | rfl <;> decide
  · simp only [List.mem_cons, List.not_mem_nil, or_false] at hx
    rcases hx with rfl | rfl <;> decide
  · simp only [List.mem_cons, List.not_mem_nil, or_false] at hx
    rcases hx with rfl | rfl <;> decide
  · simp only [List.mem_cons, List.not_mem_nil, or_false] at hx
    rcases hx with rfl | rfl <;> decide
  · simp only [List.mem_cons, List.not_mem_nil, or_false] at hx
    rcases hx with rfl
    omega
  · simp only [List.mem_cons] at hx
    rcases hx with rfl | rfl | hx
    · decide
    · decide
    · exact hex4_ascii _ x hx
  · simp only [List.cons_append, List.mem_cons, List.mem_append,
      List.not_mem_nil, or_false] at hx
    rcases hx with rfl | rfl | hx | rfl | rfl | hx <;>
      first | decide | exact hex4_ascii _ x hx

theorem escapeChars_ascii : ∀ cs : List Char, ∀ x ∈ escapeChars cs, x.toNat < 0x80 := by
  intro cs
  induction cs with
  | nil => intro x hx; simp [escapeChars] at hx
  | cons c cs ih =>
    intro x hx
    rw [escapeChars] at hx
    rcases List.mem_append.mp hx with h | h
    · exact escapeChar_ascii c x h
    · exact ih x h

theorem digitChar_ascii : ∀ m, m < 10 → (digitChar m).toNat < 0x80 := by
  decide

theorem natToCharsGo_ascii :
    ∀ fuel n, (n < 10 ∨ n ≤ fuel) → ∀ c ∈ natToCharsGo fuel n, c.toNat < 0x80 := by
  intro fuel
  induction fuel with
  | zero =>
    intro n hn c hc
    have h10 : n < 10 := by omega
    simp only [natToCharsGo, List.mem_singleton] at hc
    subst hc
    exact digitChar_ascii n h10
  | succ fuel ih =>
    intro n hn c hc
    rw [natToCharsGo] at hc
    by_cases h10 : n < 10
    · rw [if_pos h10] at hc
      simp only [List.mem_singleton] at hc
      subst hc
      exact digitChar_ascii n h10
    · rw [if_neg h10] at hc
      rcases List.mem_append.mp hc with h | h
      · exact ih (n / 10) (by omega) c h
      · simp only [List.mem_singleton] at h
        subst h
        exact digitChar_ascii _ (Nat.mod_lt _ (by norm_num))

theorem natToChars_ascii (n : Nat) : ∀ c ∈ natToChars n, c.toNat < 0x80 :=
  natToCharsGo_ascii n n (Or.inr (Nat.le_refl n))

theorem intToChars_ascii (n : Int) : ∀ c ∈ intToChars n, c.toNat < 0x80 := by
  intro c hc
  unfold intToChars at hc
  split_ifs at hc
  · rcases List.mem_cons.mp hc with rfl | h
    · decide
    · exact natToChars_ascii _ c h
  · exact natToChars_ascii _ c hc

theorem dumpsArrTail_ascii_of :
    ∀ es : List JValue, (∀ v ∈ es, ∀ c ∈ dumpsChars v, c.toNat < 0x80) →
      ∀ c ∈ dumpsArrTail es, c.toNat < 0x80 := by
  intro es
  induction es with
  | nil => intro _ c hc; rw [dumpsArrTail] at hc; simp at hc
  | cons v vs ih =>
    intro h c hc
    rw [dumpsArrTail] at hc
    rcases List.mem_cons.mp hc with rfl | hc
    · decide
    · rcases List.mem_append.mp hc with h2 | h2
      · exact h v (by simp) c h2
      · exact ih (fun w hw => h w (by simp [hw])) c h2

theorem dumpsArr_ascii_of :
    ∀ es : List JValue, (∀ v ∈ es, ∀ c ∈ dumpsChars v, c.toNat < 0x80) →
      ∀ c ∈ dumpsArr es, c.toNat < 0x80 := by
  intro es h c hc
  cases es with
  | nil => rw [dumpsArr] at hc; simp at hc
  | cons v vs =>
    rw [dumpsArr] at hc
    rcases List.mem_append.mp hc with h2 | h2
    · exact h v (by simp) c h2
    · exact dumpsArrTail_ascii_of vs (fun w hw => h w (by simp [hw])) c h2

theorem dumpsObjTail_ascii_of :
    ∀ ms : List (String × JValue), (∀ m ∈ ms, ∀ c ∈ dumpsChars m.2, c.toNat < 0x80) →
      ∀ c ∈ dumpsObjTail ms, c.toNat < 0x80 := by
  intro ms
  induction ms with
  | nil => intro _ c hc; rw [dumpsObjTail] at hc; simp at hc
  | cons m ms ih =>
    intro h c hc
    cases m with
    | mk k v =>
      rw [dumpsObjTail] at hc
      simp only [List.mem_cons, List.mem_append, List.append_assoc,
        List.cons_append, List.not_mem_nil, or_false] at hc
      rcases hc with rfl | rfl | hc | rfl | rfl | hc | hc
      · decide
      · decide
      · exact escapeChars_ascii _ c hc
      · decide
      · decide
      · exact h (k, v) (by simp) c hc
      · exact ih (fun w hw => h w (by simp [hw])) c hc

theorem dumpsObj_ascii_of :
    ∀ ms : List (String × JValue), (∀ m ∈ ms, ∀ c ∈ dumpsChars m.2, c.toNat < 0x80) →
      ∀ c ∈ dumpsObj ms, c.toNat < 0x80 := by
  intro ms h c hc
  cases ms with
  | nil => rw [dumpsObj] at hc; simp at hc
  | cons m ms =>
    cases m with
    | mk k v =>
      rw [dumpsObj] at hc
      simp only [List.mem_cons, List.mem_append, List.append_assoc,
        List.cons_append, List.not_mem_nil, or_false] at hc
      rcases hc with rfl | hc | rfl | rfl | hc | hc
      · decide
      · exact escapeChars_ascii _ c hc
      · decide
      · decide
      · exact h (k, v) (by simp) c hc
      · exact dumpsObjTail_ascii_of ms (fun w hw => h w (by simp [hw])) c hc

theorem dumps_ascii_aux :
    ∀ N : Nat, ∀ v : JValue, sizeOf v ≤ N → ∀ c ∈ dumpsChars v, c.toNat < 0x80 := by
  intro N
  induction N with
  | zero =>
    intro v hv
    exfalso
    cases v <;> simp_arith at hv
  | succ N ih =>
    intro v hv c hc
    cases v with
    | null =>
      rw [dumpsChars] at hc
      simp only [List.mem_cons, List.not_mem_nil, or_false] at hc
      rcases hc with rfl | rfl | rfl | rfl <;> decide
    | bool b =>
      cases b <;> rw [dumpsChars] at hc <;>
        simp only [List.mem_cons, List.not_mem_nil, or_false] at hc
      · rcases hc with rfl | rfl | rfl | rfl | rfl <;> decide
      · rcases hc with rfl | rfl | rfl | rfl <;> decide
    | int n =>
      rw [dumpsChars] at hc
      exact intToChars_ascii n c hc
    | nan =>
      rw [dumpsChars] at hc
      simp only [List.mem_cons, List.not_mem_nil, or_false] at hc
      rcases hc with rfl | rfl | rfl <;> decide
    | infinity =>
      rw [dumpsChars] at hc
      simp only [List.mem_cons, List.not_mem_nil, or_false] at hc
      rcases hc with rfl | rfl | rfl | rfl | rfl | rfl | rfl | rfl <;> decide
    | negInfinity =>
      rw [dumpsChars] at hc
      simp only [List.mem_cons, List.not_mem_nil, or_false] at hc
      rcases hc with rfl | rfl | rfl | rfl | rfl | rfl | rfl | rfl | rfl <;> decide
    | str s =>
      rw [dumpsChars] at hc
      rcases List.mem_cons.mp hc with rfl | hc
      · decide
      · rcases List.mem_append.mp hc with h2 | h2
        · exact escapeChars_ascii _ c h2
        · simp only [List.mem_singleton] at h2
          subst h2
          decide
    | arr es =>
      rw [dumpsChars] at hc
      have hes : sizeOf es ≤ N := by
        simp_arith at hv
        omega
      rcases List.mem_cons.mp hc with rfl | hc
      · decide
      · rcases List.mem_append.mp hc with h2 | h2
        · refine dumpsArr_ascii_of es ?_ c h2
          intro w hw
          have hsz := List.sizeOf_lt_of_mem hw
          exact ih w (by omega)
        · simp only [List.mem_singleton] at h2
          subst h2
          decide
    | obj ms =>
      rw [dumpsChars] at hc
      have hms : sizeOf ms ≤ N := by
        simp_arith at hv
        omega
      rcases List.mem_cons.mp hc with rfl | hc
      · decide
      · rcases List.mem_append.mp hc with h2 | h2
        · refine dumpsObj_ascii_of ms ?_ c h2
          intro m hm
          have hsz := List.sizeOf_lt_of_mem hm
          obtain ⟨k2, v2⟩ := m
          have : sizeOf v2 < sizeOf (k2, v2) := by simp_arith
          exact ih v2 (by omega)
        · simp only [List.mem_singleton] at h2
          subst h2
          decide

theorem dumpsChars_ascii_all (v : JValue) : ∀ c ∈ dumpsChars v, c.toNat < 0x80 :=
  dumps_ascii_aux (sizeOf v) v (Nat.le_refl _)

theorem utf8Char_lt_256 (c : Char) : ∀ b ∈ utf8Char c, b < 256 := by
  have hlt := char_toNat_lt c
  intro b hb
  simp only [utf8Char] at hb
  split_ifs at hb <;>
    simp only [List.mem_cons, List.not_mem_nil, or_false] at hb
  · omega
  · rcases hb with rfl | rfl <;> omega
  · rcases hb with rfl | rfl | rfl <;> omega
  · rcases hb with rfl | rfl | rfl | rfl <;> omega

theorem utf8EncodeChars_lt_256 :
    ∀ cs : List Char, ∀ b ∈ utf8EncodeChars cs, b < 256 := by
  intro cs
  induction cs with
  | nil => intro b hb; simp [utf8EncodeChars] at hb
  | cons c cs ih =>
    intro b hb
    rw [utf8EncodeChars] at hb
    rcases List.mem_append.mp hb with h | h
    · exact utf8Char_lt_256 c b h
    · exact ih b h

/-! Decimal rendering and parsing roundtrip. -/

theorem natToCharsGo_irrel :
    ∀ f1 : Nat, ∀ n f2, (n < 10 ∨ n ≤ f1) → (n < 10 ∨ n ≤ f2) →
      natToCharsGo f1 n = natToCharsGo f2 n := by
  intro f1
  induction f1 with
  | zero =>
    intro n f2 h1 h2
    have h10 : n < 10 := by omega
    cases f2 with
    | zero => rfl
    | succ f2 =>
      show natToCharsGo 0 n = natToCharsGo (f2 + 1) n
      rw [natToCharsGo, natToCharsGo, if_pos h10]
  | succ f1 ih =>
    intro n f2 h1 h2
    by_cases h10 : n < 10
    · cases f2 with
      | zero => rw [natToCharsGo, natToCharsGo, if_pos h10]
      | succ f2 =>
        rw [natToCharsGo, natToCharsGo, if_pos h10, if_pos h10]
    · have hf2 : ∃ f2p, f2 = f2p + 1 := ⟨f2 - 1, by omega⟩
      obtain ⟨f2p, rfl⟩ := hf2
      rw [natToCharsGo, natToCharsGo, if_neg h10, if_neg h10,
        ih (n / 10) f2p (Or.inr (by omega)) (Or.inr (by omega))]

theorem natToChars_unfold (n : Nat) :
    natToChars n = if n < 10 then [digitChar n]
      else natToChars (n / 10) ++ [digitChar (n % 10)] := by
  unfold natToChars
  by_cases h10 : n < 10
  · rw [if_pos h10]
    cases n with
    | zero => rfl
    | succ m => rw [natToCharsGo, if_pos h10]
  · rw [if_neg h10]
    have hn : ∃ m, n = m + 1 := ⟨n - 1, by omega⟩
    obtain ⟨m, rfl⟩ := hn
    rw [natToCharsGo, if_neg h10]
    congr 1
    exact natToCharsGo_irrel m ((m + 1) / 10) ((m + 1) / 10)
      (Or.inr (by omega)) (Or.inr (Nat.le_refl _))

theorem natToChars_head :
    ∀ n : Nat, ∃ m, m < 10 ∧ ∃ ds, natToChars n = digitChar m :: ds := by
  intro n
  induction n using Nat.strong_induction_on with
  | _ n ih =>
    rw [natToChars_unfold]
    by_cases h10 : n < 10
    · exact ⟨n, h10, [], by rw [if_pos h10]⟩
    · obtain ⟨m, hm, ds, hds⟩ := ih (n / 10) (by omega)
      refine ⟨m, hm, ds ++ [digitChar (n % 10)], ?_⟩
      rw [if_neg h10, hds]
      rfl

theorem digitChar_facts : ∀ m, m < 10 →
    (digitChar m).isDigit = true ∧ (digitChar m).toNat = 48 + m ∧
      digitChar m ≠ 'n' ∧ digitChar m ≠ 't' ∧ digitChar m ≠ 'f' ∧
      digitChar m ≠ 'N' ∧ digitChar m ≠ 'I' ∧ digitChar m ≠ '"' ∧
      digitChar m ≠ '{' ∧ digitChar m ≠ '[' ∧ digitChar m ≠ '-' := by
  decide

theorem parseDigits_natToChars :
    ∀ n : Nat, ∀ acc rest, parseDigits acc (natToChars n ++ rest) =
      parseDigits (acc * 10 ^ (natToChars n).length + n) rest := by
  intro n
  induction n using Nat.strong_induction_on with
  | _ n ih =>
    intro acc rest
    rw [natToChars_unfold]
    by_cases h10 : n < 10
    · rw [if_pos h10]
      show parseDigits acc (digitChar n :: rest) = _
      rw [parseDigits, if_pos (digitChar_facts n h10).1, (digitChar_facts n h10).2.1]
      have e : acc * 10 + (48 + n - 48) = acc * 10 ^ [digitChar n].length + n := by
        simp
      rw [e]
    · rw [if_neg h10, List.append_assoc, List.singleton_append,
        ih (n / 10) (by omega) acc (digitChar (n % 10) :: rest)]
      rw [parseDigits, if_pos (digitChar_facts _ (Nat.mod_lt _ (by norm_num))).1,
        (digitChar_facts _ (Nat.mod_lt _ (by norm_num))).2.1]
      congr 1
      have hdm := Nat.div_add_mod n 10
      have hp : acc * 10 ^ (natToChars (n / 10) ++ [digitChar (n % 10)]).length =
          acc * 10 ^ (natToChars (n / 10)).length * 10 := by
        rw [List.length_append, List.length_singleton, pow_succ, ← mul_assoc]
      rw [hp]
      omega

theorem parseDigits_nondigit (acc : Nat) (rest : List Char)
    (hrest : ∀ d, rest.head? = some d → d.isDigit = false) :
    parseDigits acc rest = (acc, rest) := by
  cases rest with
  | nil => rfl
  | cons c cs =>
    rw [parseDigits, if_neg]
    rw [hrest c rfl]
    simp

theorem parseDigits_int (n : Nat) (rest : List Char)
    (hrest : ∀ d, rest.head? = some d → d.isDigit = false) :
    parseDigits 0 (natToChars n ++ rest) = (n, rest) := by
  rw [parseDigits_natToChars, parseDigits_nondigit _ _ hrest]
  simp

/-! JSON string escaping and parsing roundtrip. -/

theorem parseHexDigit_hexDigitChar : ∀ m, m < 16 → parseHexDigit (hexDigitChar m) = some m := by
  decide


theorem parseStringBody_escape :
    ∀ (cs : List Char) (rest : List Char),
      parseStringBody (escapeChars cs ++ '"' :: rest) = some (cs, rest) := by
  intro cs
  induction cs with
  | nil =>
    intro rest
    rw [escapeChars, List.nil_append, parseStringBody, if_pos rfl]
  | cons c cs ih =>
    intro rest
    rw [escapeChars, List.append_assoc]
    have hval := char_not_surrogate c
    have hlt := char_toNat_lt c
    by_cases h1 : c = '"'
    · subst h1
      simp [escapeChar, parseStringBody, parseEscape, ih]
    · by_cases h2 : c = '\\'
      · subst h2
        simp [escapeChar, parseStringBody, parseEscape, ih]
      · by_cases h3 : c = '\x08'
        · subst h3
          simp [escapeChar, parseStringBody, parseEscape, ih]
        · by_cases h4 : c = '\x0c'
          · subst h4
            simp [escapeChar, parseStringBody, parseEscape, ih]
          · by_cases h5 : c = '\n'
            · subst h5
              simp [escapeChar, parseStringBody, parseEscape, ih]
            · by_cases h6 : c = '\r'
              · subst h6
                simp [escapeChar, parseStringBody, parseEscape, ih]
              · by_cases h7 : c = '\t'
                · subst h7
                  simp [escapeChar, parseStringBody, parseEscape, ih]
                · by_cases h8 : 0x20 ≤ c.toNat ∧ c.toNat ≤ 0x7e
                  · have he : escapeChar c = [c] := by
                      unfold escapeChar
                      rw [if_neg h1, if_neg h2, if_neg h3, if_neg h4, if_neg h5,
                        if_neg h6, if_neg h7, if_pos h8]
                    rw [he, List.singleton_append, parseStringBody, if_neg h1,
                      if_neg h2, if_neg (by omega : ¬ c.toNat < 0x20), ih]
                    rfl
                  · by_cases h9 : c.toNat < 0x10000
                    · have he : escapeChar c = '\\' :: 'u' :: hex4 c.toNat := by
                        unfold escapeChar
                        rw [if_neg h1, if_neg h2, if_neg h3, if_neg h4, if_neg h5,
                          if_neg h6, if_neg h7, if_neg h8, if_pos h9]
                      have p1 := parseHexDigit_hexDigitChar (c.toNat / 4096 % 16) (by omega)
                      have p2 := parseHexDigit_hexDigitChar (c.toNat / 256 % 16) (by omega)
                      have p3 := parseHexDigit_hexDigitChar (c.toNat / 16 % 16) (by omega)
                      have p4 := parseHexDigit_hexDigitChar (c.toNat % 16) (by omega)
                      have hrec : c.toNat / 4096 % 16 * 4096 + c.toNat / 256 % 16 * 256 +
                          c.toNat / 16 % 16 * 16 + c.toNat % 16 = c.toNat := by
                        omega
                      rw [he]
                      simp only [hex4, List.cons_append, List.nil_append]
                      rw [parseStringBody, if_neg (by decide : ¬ ('\\' : Char) = '"'),
                        if_pos rfl, parseEscape, if_pos rfl, parseUEscape]
                      rw [p1, p2, p3, p4]
                      simp only [hrec]
                      rw [if_pos hval, ih]
                      simp [char_ofNat_toNat]
                    · have hcn : 0x10000 ≤ c.toNat := by omega
                      set hi := 0xd800 + (c.toNat - 0x10000) / 0x400 with hhi
                      set lo := 0xdc00 + (c.toNat - 0x10000) % 0x400 with hlo
                      have he : escapeChar c =
                          ('\\' :: 'u' :: hex4 hi) ++ ('\\' :: 'u' :: hex4 lo) := by
                        unfold escapeChar
                        rw [if_neg h1, if_neg h2, if_neg h3, if_neg h4, if_neg h5,
                          if_neg h6, if_neg h7, if_neg h8, if_neg h9]
                      have hhiv : hi < 0xdc00 := by rw [hhi]; omega
                      have hhiv2 : 0xd800 ≤ hi := by rw [hhi]; omega
                      have hlov : lo < 0xe000 := by
                        rw [hlo]
                        have := Nat.mod_lt (c.toNat - 0x10000) (show 0 < 0x400 by norm_num)
                        omega
                      have hlov2 : 0xdc00 ≤ lo := by rw [hlo]; omega
                      have q1 := parseHexDigit_hexDigitChar (hi / 4096 % 16) (by omega)
                      have q2 := parseHexDigit_hexDigitChar (hi / 256 % 16) (by omega)
                      have q3 := parseHexDigit_hexDigitChar (hi / 16 % 16) (by omega)
                      have q4 := parseHexDigit_hexDigitChar (hi % 16) (by omega)
                      have r1 := parseHexDigit_hexDigitChar (lo / 4096 % 16) (by omega)
                      have r2 := parseHexDigit_hexDigitChar (lo / 256 % 16) (by omega)
                      have r3 := parseHexDigit_hexDigitChar (lo / 16 % 16) (by omega)
                      have r4 := parseHexDigit_hexDigitChar (lo % 16) (by omega)
                      have hrecHi : hi / 4096 % 16 * 4096 + hi / 256 % 16 * 256 +
                          hi / 16 % 16 * 16 + hi % 16 = hi := by omega
                      have hrecLo : lo / 4096 % 16 * 4096 + lo / 256 % 16 * 256 +
                          lo / 16 % 16 * 16 + lo % 16 = lo := by omega
                      have hcomb : 0x10000 + (hi - 0xd800) * 0x400 + (lo - 0xdc00) =
                          c.toNat := by
                        rw [hhi, hlo]
                        omega
                      rw [he]
                      simp only [hex4, List.cons_append, List.nil_append,
                        List.append_assoc]
                      rw [parseStringBody, if_neg (by decide : ¬ ('\\' : Char) = '"'),
                        if_pos rfl, parseEscape, if_pos rfl, parseUEscape]
                      rw [q1, q2, q3, q4]
                      simp only [hrecHi]
                      rw [if_neg (by omega : ¬ (hi < 0xd800 ∨ 0xe000 ≤ hi)),
                        if_pos hhiv, parseLowSurrogate]
                      rw [r1, r2, r3, r4]
                      simp only [hrecLo]
                      rw [if_pos ⟨hlov2, hlov⟩, ih, hcomb, char_ofNat_toNat]
                      rfl

/-! Supporting lemmas for the JSON parser roundtrip. -/

theorem expectChars_self : ∀ es cs : List Char, expectChars es (es ++ cs) = some cs := by
  intro es
  induction es with
  | nil => intro cs; rfl
  | cons e es ih =>
    intro cs
    rw [List.cons_append, expectChars, if_pos rfl, ih]

theorem digitChar_facts2 : ∀ m, m < 10 →
    digitChar m ≠ ']' ∧ digitChar m ≠ '}' ∧ (digitChar m).isDigit = true := by
  decide

theorem Jsize_pos : ∀ v : JValue, 1 ≤ Jsize v := by
  intro v
  cases v <;> rw [Jsize] <;> omega

theorem JsizeObj_pos : ∀ ms : List (String × JValue), ms ≠ [] → 1 ≤ JsizeObj ms := by
  intro ms h
  cases ms with
  | nil => exact absurd rfl h
  | cons m t =>
    obtain ⟨k, v⟩ := m
    rw [JsizeObj]
    omega

theorem JsizeArr_pos : ∀ es : List JValue, es ≠ [] → 1 ≤ JsizeArr es := by
  intro es h
  cases es with
  | nil => exact absurd rfl h
  | cons v t =>
    rw [JsizeArr]
    omega

theorem dumpsChars_head :
    ∀ v : JValue, ∃ hd tl, dumpsChars v = hd :: tl ∧ hd ≠ ']' ∧ hd ≠ '}' := by
  intro v
  cases v with
  | null => exact ⟨'n', _, by rw [dumpsChars], by decide, by decide⟩
  | bool b =>
    cases b
    · exact ⟨'f', _, by rw [dumpsChars], by decide, by decide⟩
    · exact ⟨'t', _, by rw [dumpsChars], by decide, by decide⟩
  | int n =>
    by_cases hn : n < 0
    · refine ⟨'-', natToChars n.natAbs, ?_, by decide, by decide⟩
      rw [dumpsChars, intToChars, if_pos hn]
    · obtain ⟨m, hm, ds, hds⟩ := natToChars_head n.natAbs
      refine ⟨digitChar m, ds, ?_, (digitChar_facts2 m hm).1, (digitChar_facts2 m hm).2.1⟩
      rw [dumpsChars, intToChars, if_neg hn, hds]
  | nan => exact ⟨'N', _, by rw [dumpsChars], by decide, by decide⟩
  | infinity => exact ⟨'I', _, by rw [dumpsChars], by decide, by decide⟩
  | negInfinity => exact ⟨'-', _, by rw [dumpsChars], by decide, by decide⟩
  | str s =>
    exact ⟨'"', escapeChars s.data ++ ['"'], by rw [dumpsChars]; simp, by decide, by decide⟩
  | arr es =>
    exact ⟨'[', dumpsArr es ++ [']'], by rw [dumpsChars]; simp, by decide, by decide⟩
  | obj ms =>
    exact ⟨'{', dumpsObj ms ++ ['}'], by rw [dumpsChars]; simp, by decide, by decide⟩

theorem objTail_head_nondigit :
    ∀ (ms : List (String × JValue)) (rest : List Char) (d : Char),
      (dumpsObjTail ms ++ '}' :: rest).head? = some d → d.isDigit = false := by
  intro ms rest d hd
  cases ms with
  | nil =>
    rw [dumpsObjTail, List.nil_append] at hd
    simp at hd
    subst hd
    decide
  | cons m t =>
    obtain ⟨k, v⟩ := m
    rw [dumpsObjTail] at hd
    simp at hd
    subst hd
    decide

theorem arrTail_head_nondigit :
    ∀ (vs : List JValue) (rest : List Char) (d : Char),
      (dumpsArrTail vs ++ ']' :: rest).head? = some d → d.isDigit = false := by
  intro vs rest d hd
  cases vs with
  | nil =>
    rw [dumpsArrTail, List.nil_append] at hd
    simp at hd
    subst hd
    decide
  | cons v t =>
    rw [dumpsArrTail] at hd
    simp at hd
    subst hd
    decide

theorem dumpsObjTail_cons_eq (m : String × JValue) (t : List (String × JValue)) :
    dumpsObjTail (m :: t) = ',' :: dumpsObj (m :: t) := by
  obtain ⟨k, v⟩ := m
  rw [dumpsObjTail, dumpsObj]
  simp

theorem dumpsArrTail_cons_eq (v : JValue) (t : List JValue) :
    dumpsArrTail (v :: t) = ',' :: dumpsArr (v :: t) := by
  rw [dumpsArrTail, dumpsArr]
  simp

theorem parseDigits_fromHead (a m : Nat) (hm : m < 10) (ds rest : List Char)
    (hhead : natToChars a = digitChar m :: ds)
    (hrest : ∀ d, rest.head? = some d → d.isDigit = false) :
    parseDigits ((digitChar m).toNat - 48) (ds ++ rest) = (a, rest) := by
  have h0 := parseDigits_int a rest hrest
  rw [hhead, List.cons_append, parseDigits, if_pos (digitChar_facts m hm).1] at h0
  simp only [Nat.zero_mul, Nat.zero_add] at h0
  exact h0

theorem parse_roundtrip_aux : ∀ fuel : Nat,
    (∀ (v : JValue) (rest : List Char), Jsize v ≤ fuel →
      (∀ d, rest.head? = some d → d.isDigit = false) →
      parseValue fuel (dumpsChars v ++ rest) = some (v, rest)) ∧
    (∀ (ms : List (String × JValue)) (rest : List Char), ms ≠ [] →
      JsizeObj ms ≤ fuel →
      parseMembers fuel (dumpsObj ms ++ '}' :: rest) = some (ms, rest)) ∧
    (∀ (es : List JValue) (rest : List Char), es ≠ [] → JsizeArr es ≤ fuel →
      parseElems fuel (dumpsArr es ++ ']' :: rest) = some (es, rest)) := by
  intro fuel
  induction fuel with
  | zero =>
    refine ⟨?_, ?_, ?_⟩
    · intro v rest hsz
      have := Jsize_pos v
      omega
    · intro ms rest hne hsz
      have := JsizeObj_pos ms hne
      omega
    · intro es rest hne hsz
      have := JsizeArr_pos es hne
      omega
  | succ fuel ih =>
    obtain ⟨ihV, ihM, ihE⟩ := ih
    refine ⟨?_, ?_, ?_⟩
    · -- parseValue on a serialized value
      intro v rest hsz hrest
      cases v with
      | null =>
        rw [dumpsChars]
        simp only [List.cons_append, List.nil_append]
        rw [parseValue, if_pos rfl]
        have hexp := expectChars_self ['u', 'l', 'l'] rest
        simp only [List.cons_append, List.nil_append] at hexp
        rw [hexp]
        rfl
      | bool b =>
        cases b
        · rw [dumpsChars]
          simp only [List.cons_append, List.nil_append]
          rw [parseValue, if_neg (by decide), if_neg (by decide), if_pos rfl]
          have hexp := expectChars_self ['a', 'l', 's', 'e'] rest
          simp only [List.cons_append, List.nil_append] at hexp
          rw [hexp]
          rfl
        · rw [dumpsChars]
          simp only [List.cons_append, List.nil_append]
          rw [parseValue, if_neg (by decide), if_pos rfl]
          have hexp := expectChars_self ['r', 'u', 'e'] rest
          simp only [List.cons_append, List.nil_append] at hexp
          rw [hexp]
          rfl
      | nan =>
        rw [dumpsChars]
        simp only [List.cons_append, List.nil_append]
        rw [parseValue, if_neg (by decide), if_neg (by decide), if_neg (by decide),
          if_pos rfl]
        have hexp := expectChars_self ['a', 'N'] rest
        simp only [List.cons_append, List.nil_append] at hexp
        rw [hexp]
        rfl
      | infinity =>
        rw [dumpsChars]
        simp only [List.cons_append, List.nil_append]
        rw [parseValue, if_neg (by decide), if_neg (by decide), if_neg (by decide),
          if_neg (by decide), if_pos rfl]
        have hexp := expectChars_self ['n', 'f', 'i', 'n', 'i', 't', 'y'] rest
        simp only [List.cons_append, List.nil_append] at hexp
        rw [hexp]
        rfl
      | negInfinity =>
        rw [dumpsChars]
        simp only [List.cons_append, List.nil_append]
        rw [parseValue, if_neg (by decide), if_neg (by decide), if_neg (by decide),
          if_neg (by decide), if_neg (by decide), if_neg (by decide),
          if_neg (by decide), if_neg (by decide), if_pos rfl]
        rw [parseNegNumber, if_pos rfl]
        have hexp := expectChars_self ['n', 'f', 'i', 'n', 'i', 't', 'y'] rest
        simp only [List.cons_append, List.nil_append] at hexp
        rw [hexp]
        rfl
      | str s =>
        have hshape : dumpsChars (.str s) ++ rest =
            '"' :: (escapeChars s.data ++ '"' :: rest) := by
          rw [dumpsChars]
          simp
        rw [hshape, parseValue, if_neg (by decide), if_neg (by decide),
          if_neg (by decide), if_neg (by decide), if_neg (by decide), if_pos rfl,
          parseStringBody_escape s.data rest]
        simp only [Option.map_some']
      | int n =>
        obtain ⟨m, hm, ds, hds⟩ := natToChars_head n.natAbs
        have hfacts := digitChar_facts m hm
        by_cases hn : n < 0
        · have hshape : dumpsChars (.int n) ++ rest =
              '-' :: (digitChar m :: (ds ++ rest)) := by
            rw [dumpsChars, intToChars, if_pos hn, hds]
            simp
          rw [hshape, parseValue, if_neg (by decide), if_neg (by decide),
            if_neg (by decide), if_neg (by decide), if_neg (by decide),
            if_neg (by decide), if_neg (by decide), if_neg (by decide), if_pos rfl]
          rw [parseNegNumber, if_neg hfacts.2.2.2.2.2.2.1, if_pos hfacts.1]
          have hfst : (parseDigits ((digitChar m).toNat - 48) (ds ++ rest)).1 = n.natAbs := by
            rw [parseDigits_fromHead n.natAbs m hm ds rest hds hrest]
          have hsnd : (parseDigits ((digitChar m).toNat - 48) (ds ++ rest)).2 = rest := by
            rw [parseDigits_fromHead n.natAbs m hm ds rest hds hrest]
          have hval : -(((n.natAbs : Nat) : Int)) = n := by omega
          rw [hfst, hsnd, hval]
        · have hshape : dumpsChars (.int n) ++ rest = digitChar m :: (ds ++ rest) := by
            rw [dumpsChars, intToChars, if_neg hn, hds]
            simp
          rw [hshape, parseValue, if_neg hfacts.2.2.1, if_neg hfacts.2.2.2.1,
            if_neg hfacts.2.2.2.2.1, if_neg hfacts.2.2.2.2.2.1,
            if_neg hfacts.2.2.2.2.2.2.1, if_neg hfacts.2.2.2.2.2.2.2.1,
            if_neg hfacts.2.2.2.2.2.2.2.2.1, if_neg hfacts.2.2.2.2.2.2.2.2.2.1,
            if_neg hfacts.2.2.2.2.2.2.2.2.2.2, if_pos hfacts.1]
          have hfst : (parseDigits ((digitChar m).toNat - 48) (ds ++ rest)).1 = n.natAbs := by
            rw [parseDigits_fromHead n.natAbs m hm ds rest hds hrest]
          have hsnd : (parseDigits ((digitChar m).toNat - 48) (ds ++ rest)).2 = rest := by
            rw [parseDigits_fromHead n.natAbs m hm ds rest hds hrest]
          have hval : (((n.natAbs : Nat) : Int)) = n := by omega
          rw [hfst, hsnd, hval]
      | arr es =>
        cases es with
        | nil =>
          have hshape : dumpsChars (.arr []) ++ rest = '[' :: (']' :: rest) := by
            rw [dumpsChars, dumpsArr]
            simp
          rw [hshape, parseValue, if_neg (by decide), if_neg (by decide),
            if_neg (by decide), if_neg (by decide), if_neg (by decide),
            if_neg (by decide), if_neg (by decide), if_pos rfl]
          rw [parseArrBody, if_pos rfl]
        | cons v vs =>
          obtain ⟨hd, tl, hdt, hne1, hne2⟩ := dumpsChars_head v
          have hcs : dumpsArr (v :: vs) ++ ']' :: rest =
              hd :: (tl ++ (dumpsArrTail vs ++ ']' :: rest)) := by
            rw [dumpsArr, hdt]
            simp
          have hshape : dumpsChars (.arr (v :: vs)) ++ rest =
              '[' :: (dumpsArr (v :: vs) ++ ']' :: rest) := by
            rw [dumpsChars]
            simp
          have hsz2 : JsizeArr (v :: vs) ≤ fuel := by
            rw [Jsize] at hsz
            omega
          rw [hshape, parseValue, if_neg (by decide), if_neg (by decide),
            if_neg (by decide), if_neg (by decide), if_neg (by decide),
            if_neg (by decide), if_neg (by decide), if_pos rfl, hcs]
          rw [parseArrBody, if_neg hne1, ← hcs, ihE (v :: vs) rest (by simp) hsz2]
          rfl
      | obj ms =>
        cases ms with
        | nil =>
          have hshape : dumpsChars (.obj []) ++ rest = '{' :: ('}' :: rest) := by
            rw [dumpsChars, dumpsObj]
            simp
          rw [hshape, parseValue, if_neg (by decide), if_neg (by decide),
            if_neg (by decide), if_neg (by decide), if_neg (by decide),
            if_neg (by decide), if_pos rfl]
          rw [parseObjBody, if_pos rfl]
        | cons m ms2 =>
          obtain ⟨k, v⟩ := m
          have hcs : dumpsObj ((k, v) :: ms2) ++ '}' :: rest =
              '"' :: (escapeChars k.data ++ '"' ::
                (':' :: (dumpsChars v ++ (dumpsObjTail ms2 ++ '}' :: rest)))) := by
            rw [dumpsObj]
            simp
          have hshape : dumpsChars (.obj ((k, v) :: ms2)) ++ rest =
              '{' :: (dumpsObj ((k, v) :: ms2) ++ '}' :: rest) := by
            rw [dumpsChars]
            simp
          have hsz2 : JsizeObj ((k, v) :: ms2) ≤ fuel := by
            rw [Jsize] at hsz
            omega
          rw [hshape, parseValue, if_neg (by decide), if_neg (by decide),
            if_neg (by decide), if_neg (by decide), if_neg (by decide),
            if_neg (by decide), if_pos rfl, hcs]
          rw [parseObjBody, if_neg (by decide : ¬ ('"' : Char) = '}'), ← hcs,
            ihM ((k, v) :: ms2) rest (by simp) hsz2]
          rfl
    · -- parseMembers on serialized members
      intro ms rest hne hsz
      cases ms with
      | nil => exact absurd rfl hne
      | cons m ms2 =>
        obtain ⟨k, v⟩ := m
        have hcs : dumpsObj ((k, v) :: ms2) ++ '}' :: rest =
            '"' :: (escapeChars k.data ++ '"' ::
              (':' :: (dumpsChars v ++ (dumpsObjTail ms2 ++ '}' :: rest)))) := by
          rw [dumpsObj]
          simp
        have hszv : Jsize v ≤ fuel := by
          rw [JsizeObj] at hsz
          omega
        have hszm : JsizeObj ms2 ≤ fuel := by
          rw [JsizeObj] at hsz
          omega
        rw [hcs, parseMembers, if_pos rfl,
          parseStringBody_escape k.data
            (':' :: (dumpsChars v ++ (dumpsObjTail ms2 ++ '}' :: rest)))]
        simp only [Option.some_bind]
        rw [parseMemberSep,
          ihV v (dumpsObjTail ms2 ++ '}' :: rest) hszv (objTail_head_nondigit ms2 rest)]
        simp only [Option.some_bind]
        cases ms2 with
        | nil =>
          rw [dumpsObjTail, List.nil_append, parseMemberEnd, string_mk_data]
        | cons m2 ms3 =>
          rw [dumpsObjTail_cons_eq, List.cons_append, parseMemberEnd,
            ihM (m2 :: ms3) rest (by simp) hszm]
          simp [string_mk_data]
    · -- parseElems on serialized elements
      intro es rest hne hsz
      cases es with
      | nil => exact absurd rfl hne
      | cons v vs =>
        have hcs : dumpsArr (v :: vs) ++ ']' :: rest =
            dumpsChars v ++ (dumpsArrTail vs ++ ']' :: rest) := by
          rw [dumpsArr]
          simp
        have hszv : Jsize v ≤ fuel := by
          rw [JsizeArr] at hsz
          omega
        have hszs : JsizeArr vs ≤ fuel := by
          rw [JsizeArr] at hsz
          omega
        rw [hcs, parseElems,
          ihV v (dumpsArrTail vs ++ ']' :: rest) hszv (arrTail_head_nondigit vs rest)]
        simp only [Option.some_bind]
        cases vs with
        | nil =>
          rw [dumpsArrTail, List.nil_append, parseElemEnd]
        | cons v2 vs2 =>
          rw [dumpsArrTail_cons_eq, List.cons_append, parseElemEnd,
            ihE (v2 :: vs2) rest (by simp) hszs]
          rfl

/-! The node-count measure is bounded by the serialization length, so the
fuel `json_parse` supplies is always sufficient. -/

theorem dumpsArrTail_size_of :
    ∀ vs : List JValue, (∀ v ∈ vs, Jsize v ≤ (dumpsChars v).length) →
      JsizeArr vs ≤ (dumpsArrTail vs).length := by
  intro vs
  induction vs with
  | nil => intro _; rw [JsizeArr, dumpsArrTail]; simp
  | cons v t ih =>
    intro h
    rw [JsizeArr, dumpsArrTail]
    have h1 := h v (by simp)
    have h2 := ih (fun w hw => h w (by simp [hw]))
    simp only [List.length_cons, List.length_append]
    omega

theorem dumpsObjTail_size_of :
    ∀ ms : List (String × JValue), (∀ m ∈ ms, Jsize m.2 ≤ (dumpsChars m.2).length) →
      JsizeObj ms ≤ (dumpsObjTail ms).length := by
  intro ms
  induction ms with
  | nil => intro _; rw [JsizeObj, dumpsObjTail]; simp
  | cons m t ih =>
    intro h
    obtain ⟨k, v⟩ := m
    rw [JsizeObj, dumpsObjTail]
    have h1 : Jsize v ≤ (dumpsChars v).length := h (k, v) (by simp)
    have h2 := ih (fun w hw => h w (by simp [hw]))
    simp only [List.length_cons, List.length_append]
    omega

theorem Jsize_le_aux :
    ∀ N : Nat, ∀ v : JValue, sizeOf v ≤ N → Jsize v ≤ (dumpsChars v).length := by
  intro N
  induction N with
  | zero =>
    intro v hv
    exfalso
    cases v <;> simp_arith at hv
  | succ N ih =>
    intro v hv
    cases v with
    | null => rw [Jsize, dumpsChars]; simp
    | bool b => cases b <;> rw [Jsize, dumpsChars] <;> simp
    | int n =>
      rw [Jsize]
      obtain ⟨m, hm, ds, hds⟩ := natToChars_head n.natAbs
      rw [dumpsChars, intToChars]
      split_ifs <;> rw [hds] <;> simp
    | nan => rw [Jsize, dumpsChars]; simp
    | infinity => rw [Jsize, dumpsChars]; simp
    | negInfinity => rw [Jsize, dumpsChars]; simp
    | str s => rw [Jsize, dumpsChars]; simp
    | arr es =>
      rw [Jsize, dumpsChars]
      have hes : sizeOf es ≤ N := by
        simp_arith at hv
        omega
      have hel : ∀ w ∈ es, Jsize w ≤ (dumpsChars w).length := by
        intro w hw
        have hsz := List.sizeOf_lt_of_mem hw
        exact ih w (by omega)
      cases es with
      | nil =>
        rw [JsizeArr, dumpsArr]
        simp
      | cons v vs =>
        rw [JsizeArr, dumpsArr]
        have h1 := hel v (by simp)
        have h2 := dumpsArrTail_size_of vs (fun w hw => hel w (by simp [hw]))
        simp only [List.length_cons, List.length_append]
        omega
    | obj ms =>
      rw [Jsize, dumpsChars]
      have hms : sizeOf ms ≤ N := by
        simp_arith at hv
        omega
      have hel : ∀ m ∈ ms, Jsize m.2 ≤ (dumpsChars m.2).length := by
        intro m hm
        have hsz := List.sizeOf_lt_of_mem hm
        obtain ⟨k2, v2⟩ := m
        have : sizeOf v2 < sizeOf (k2, v2) := by simp_arith
        exact ih v2 (by omega)
      cases ms with
      | nil =>
        rw [JsizeObj, dumpsObj]
        simp
      | cons m ms2 =>
        obtain ⟨k, v⟩ := m
        rw [JsizeObj, dumpsObj]
        have h1 : Jsize v ≤ (dumpsChars v).length := hel (k, v) (by simp)
        have h2 := dumpsObjTail_size_of ms2 (fun w hw => hel w (by simp [hw]))
        simp only [List.length_cons, List.length_append]
        omega

theorem Jsize_le_dumps (v : JValue) : Jsize v ≤ (dumpsChars v).length :=
  Jsize_le_aux (sizeOf v) v (Nat.le_refl _)

/-! Assembly of the verifier roundtrip. -/

theorem json_parse_dumps (v : JValue) : json_parse (json_dumps v) = some v := by
  unfold json_parse
  have hdata : (json_dumps v).data = dumpsChars v := rfl
  have hfuel : Jsize v ≤ (dumpsChars v).length + 1 := by
    have := Jsize_le_dumps v
    omega
  have hv := (parse_roundtrip_aux ((dumpsChars v).length + 1)).1 v [] hfuel
    (by intro d hd; simp at hd)
  rw [List.append_nil] at hv
  rw [hdata, hv]

theorem verifier_roundtrip (p : List (String × JValue)) (k : String) :
    verifierDecodePayload (generate_upload_signature p k) = some (JValue.obj p) := by
  unfold verifierDecodePayload
  rw [firstSegment_sign]
  have hdata : (String.mk (payloadB64 p)).data = payloadB64 p := rfl
  rw [hdata]
  have hseg : payloadB64 p = b64NoPad (utf8EncodeChars (dumpsChars (.obj p))) := by
    unfold payloadB64
    rw [rstripEq_b64Encode]
    rfl
  rw [hseg, b64PadRestore_noPad,
    b64DecodeQuads_b64Encode _ (utf8EncodeChars_lt_256 _)]
  simp only [Option.some_bind]
  rw [utf8Decode_encode_ascii _ (dumpsChars_ascii_all _)]
  simp only [Option.some_bind]
  have hmk : (String.mk (dumpsChars (JValue.obj p))) = json_dumps (JValue.obj p) := rfl
  rw [hmk, json_parse_dumps]

/-- C6: roundtrip — splitting the token on `.`, restoring the base64
padding of the first segment, base64url-decoding it, decoding UTF-8 and
JSON-parsing the text reproduces exactly the original payload (the
modelled payloads carry arbitrary-precision integers, so no numeric
precision is lost). -/
theorem claim_C6 (p : List (String × JValue)) (k : String) :
    verifierDecodePayload (generate_upload_signature p k) = some (JValue.obj p) :=
  verifier_roundtrip p k
